import Mathlib

/-!
Verification of the treasure-class expected-drop engine of
tools/generate_boss_drops.py.

Modelling conventions:
* Python dictionaries are association lists with first-occurrence lookup and
  insert-or-override assignment (Python dicts never hold a duplicate key, so
  replacing the first occurrence is faithful).
* Python floats are modelled by exact rationals; every formula involved
  (division, integer powers, rounding) is stated exactly.
* Python `round` (banker's rounding, half to even) is `pyround`; `int(x)`
  applied to a nonnegative float is the floor.
* Python exceptions are an explicit error type `PyErr`; a `KeyError` carries
  the missing key, a `ZeroDivisionError` carries nothing.
* The recursion of `leaf_dist` over the treasure-class graph carries explicit
  fuel; exhausting it corresponds to Python's `RecursionError` on a cyclic
  table.  The memo key `f"{tc}::p{players}"` is modelled by the pair
  `(tc, players)`, which the formatted string determines uniquely (rendered
  integers contain no colon).
-/

/-- Python exceptions that the engine can raise. -/
inductive PyErr where
  | keyError (key : String)
  | zeroDivisionError
  | recursionError
deriving DecidableEq

/-- The identifier, if any, carried inside an error value. -/
def errNames : PyErr → Option String
  | .keyError k => some k
  | .zeroDivisionError => none
  | .recursionError => none

/-- One row of TreasureClassEx.txt after TSV parsing: the values of the Item
columns in order (possibly empty strings), the values of the Prob columns in
order, the NoDrop column (`none` when the cell is absent or empty, mirroring
Python truthiness of the raw string) and the Picks column (`none` when absent
or empty; `int(... or 1)` is `getPicks`). -/
structure TCRow where
  itemCols : List String
  probCols : List Int
  noDrop : Option Int
  picks : Option Int
deriving DecidableEq

abbrev Dict := List (String × ℚ)
abbrev Table := List (String × TCRow)
abbrev Memo := List ((String × Int) × Dict)

/-- Lookup in the treasure-class dictionary `tcdict`. -/
def lookupRow : Table → String → Option TCRow
  | [], _ => none
  | (a, r) :: t, k => if a = k then some r else lookupRow t k

/-- Python dict lookup, first (unique) occurrence. -/
def dget : Dict → String → Option ℚ
  | [], _ => none
  | (a, b) :: d, k => if a = k then some b else dget d k

/-- The value a `defaultdict(float)` reads for a key: stored value or `0.0`. -/
def dval (d : Dict) (k : String) : ℚ := (dget d k).getD 0

/-- Python dict assignment `d[k] = v`: override in place, else append. -/
def dset : Dict → String → ℚ → Dict
  | [], k, v => [(k, v)]
  | (a, b) :: d, k, v => if a = k then (k, v) :: d else (a, b) :: dset d k v

/-- The accumulation `d[k] += v` on a `defaultdict(float)`. -/
def dadd (d : Dict) (k : String) (v : ℚ) : Dict := dset d k (dval d k + v)

/-- Sum of all stored values of a dict. -/
def dsum (d : Dict) : ℚ := (d.map Prod.snd).sum

/-- The keys of a dict, in storage order. -/
def dkeys (d : Dict) : List String := d.map Prod.fst

/-- A dict that (like every real Python dict) holds no duplicate key. -/
def DNodup (d : Dict) : Prop := (dkeys d).Nodup

/-- A dict whose stored values are all nonnegative. -/
def DNonneg (d : Dict) : Prop := ∀ kv ∈ d, 0 ≤ kv.2

/-- Memo lookup, keyed by (treasure class, player count). -/
def memoLookup : Memo → (String × Int) → Option Dict
  | [], _ => none
  | (a, e) :: m, k => if a = k then some e else memoLookup m k

/-- Memo assignment `memo[key] = d`. -/
def memoInsert : Memo → (String × Int) → Dict → Memo
  | [], k, d => [(k, d)]
  | (a, e) :: m, k, d => if a = k then (k, d) :: m else (a, e) :: memoInsert m k d

/-- Python `s.startswith(pre)`, stated on the character lists of the two
strings so that it evaluates by kernel reduction. -/
def pyStartsWith (s pre : String) : Bool := pre.data.isPrefixOf s.data

/-- Python 3 `round` to an integer: round half to even. -/
def pyround (q : ℚ) : ℤ :=
  let f := ⌊q⌋
  let r := q - (f : ℚ)
  if r < 1/2 then f
  else if 1/2 < r then f + 1
  else if f % 2 = 0 then f else f + 1

/-- Mirrors `nodrop_adjusted_weight(nodrop_orig, sumprobs, players)`:
clamp the player count into [1,8], take the exponent
`int(players/2.0 + 0.5)` (truncation of a positive value, hence the floor),
form `ratio = (nodrop_orig/(nodrop_orig+sumprobs)) ** e`, and return
`int(round(ratio/(1-ratio) * sumprobs))`.  Each division by zero is the
corresponding Python `ZeroDivisionError`. -/
def nodrop_adjusted_weight (nodrop_orig sumprobs players : Int) : Except PyErr Int :=
  let pclamp : Int := max 1 (min 8 players)
  let nd_exp : ℕ := (⌊(pclamp : ℚ) / 2 + 1/2⌋).toNat
  if (nodrop_orig : ℚ) + (sumprobs : ℚ) = 0 then .error .zeroDivisionError
  else
    let ratio : ℚ := ((nodrop_orig : ℚ) / ((nodrop_orig : ℚ) + (sumprobs : ℚ))) ^ nd_exp
    if ratio = 1 then .error .zeroDivisionError
    else .ok (pyround (ratio / (1 - ratio) * (sumprobs : ℚ)))

/-- The (outcome, weight) pairs a row lists: the nonempty Item column values
in order, the n-th one paired with the value of column `Prob n` (this is the
pairing the extraction loop of `outcome_probs` performs). -/
def listedPairs (row : TCRow) : List (String × Int) :=
  (row.itemCols.filter (fun s => !(s == ""))).zip row.probCols

/-- The running `sum(probs)` of a list of (outcome, weight) pairs. -/
def sumWeights (l : List (String × Int)) : Int := (l.map Prod.snd).sum

/-- The final dict comprehension `{items[i]: probs[i]/total}` of
`outcome_probs`: later duplicate outcomes override earlier ones. -/
def buildProbDict (entries : List (String × Int)) (total : ℚ) : Dict :=
  entries.foldl (fun d kv => dset d kv.1 ((kv.2 : ℚ) / total)) []

/-- Mirrors `outcome_probs(tc, tcdict, players)`.  The final dict
comprehension divides by `total` once per collected entry, so it raises
ZeroDivisionError exactly when `total` is zero and at least one entry
exists; a row with no entries at all runs zero iterations and succeeds
with the empty dict. -/
def outcome_probs (tc : String) (t : Table) (players : Int) : Except PyErr Dict :=
  match lookupRow t tc with
  | none => .error (.keyError tc)
  | some row =>
    let listed := listedPairs row
    let entriesE : Except PyErr (List (String × Int)) :=
      match row.noDrop with
      | none => .ok listed
      | some nd0 =>
        match nodrop_adjusted_weight nd0 (sumWeights listed) players with
        | .error e => .error e
        | .ok w => .ok (listed ++ [("", w)])
    match entriesE with
    | .error e => .error e
    | .ok entries =>
      let total : ℚ := (sumWeights entries : ℚ)
      if total = 0 ∧ entries ≠ [] then .error .zeroDivisionError
      else .ok (buildProbDict entries total)

/-- The inner accumulation `for k, v in sub.items(): dist[k] += c * v`. -/
def accumScaled (c : ℚ) (sub : Dict) (dist : Dict) : Dict :=
  sub.foldl (fun d kv => dadd d kv.1 (c * kv.2)) dist

/-- The loop body of `leaf_dist` over the items of an outcome distribution,
parameterised by the recursive call `rec`. -/
def leafLoop (rec : String → Memo → Except PyErr (Dict × Memo)) (t : Table) :
    List (String × ℚ) → Dict → Memo → Except PyErr (Dict × Memo)
  | [], dist, memo => .ok (dist, memo)
  | (o, pr) :: rest, dist, memo =>
    if o = "" then leafLoop rec t rest dist memo
    else
      match lookupRow t o with
      | some _ =>
        match rec o memo with
        | .error e => .error e
        | .ok dm => leafLoop rec t rest (accumScaled pr dm.1 dist) dm.2
      | none => leafLoop rec t rest (dadd dist o pr) memo

/-- Mirrors `leaf_dist(tc_or_item, tcdict, players, memo)`, with fuel for the
recursion over the (assumed acyclic) table. -/
def leaf_dist : ℕ → String → Table → Int → Memo → Except PyErr (Dict × Memo)
  | 0, _, _, _, _ => .error .recursionError
  | fuel + 1, tc, t, players, memo =>
    if tc = "" then .ok ([], memo)
    else
      match lookupRow t tc with
      | none => .ok ([(tc, 1)], memo)
      | some _ =>
        match memoLookup memo (tc, players) with
        | some d => .ok (d, memo)
        | none =>
          match outcome_probs tc t players with
          | .error e => .error e
          | .ok probs =>
            match leafLoop (fun o m => leaf_dist fuel o t players m) t probs [] memo with
            | .error e => .error e
            | .ok dm => .ok (dm.1, memoInsert dm.2 (tc, players) dm.1)

/-- The loop of the pure (memo-free) leaf resolution, parameterised by the
recursive call; reference point for the memoisation claims. -/
def leafLoopP (rec : String → Except PyErr Dict) (t : Table) :
    List (String × ℚ) → Dict → Except PyErr Dict
  | [], dist => .ok dist
  | (o, pr) :: rest, dist =>
    if o = "" then leafLoopP rec t rest dist
    else
      match lookupRow t o with
      | some _ =>
        match rec o with
        | .error e => .error e
        | .ok sub => leafLoopP rec t rest (accumScaled pr sub dist)
      | none => leafLoopP rec t rest (dadd dist o pr)

/-- The pure unmemoised recursion of the Leaf Resolver: identical to
`leaf_dist` with the memo removed. -/
def leafPure : ℕ → String → Table → Int → Except PyErr Dict
  | 0, _, _, _ => .error .recursionError
  | fuel + 1, tc, t, players =>
    if tc = "" then .ok []
    else
      match lookupRow t tc with
      | none => .ok [(tc, 1)]
      | some _ =>
        match outcome_probs tc t players with
        | .error e => .error e
        | .ok probs => leafLoopP (fun o => leafPure fuel o t players) t probs []

/-- `int(row.get("Picks") or 1)`. -/
def getPicks (row : TCRow) : Int := row.picks.getD 1

/-- The loop of `expected_counts_for_one_pick` over the root's outcome
distribution. -/
def onePickLoop (fuel : ℕ) (t : Table) (players : Int) :
    List (String × ℚ) → Dict → Memo → Except PyErr (Dict × Memo)
  | [], out, memo => .ok (out, memo)
  | (tc1, p1) :: rest, out, memo =>
    if tc1 = "" then onePickLoop fuel t players rest out memo
    else
      match lookupRow t tc1 with
      | some row =>
        match leaf_dist fuel tc1 t players memo with
        | .error e => .error e
        | .ok dm =>
            onePickLoop fuel t players rest
              (accumScaled (p1 * (getPicks row : ℚ)) dm.1 out) dm.2
      | none => onePickLoop fuel t players rest (dadd out tc1 p1) memo

/-- Mirrors `expected_counts_for_one_pick(root_tc, tcdict, players, memo)`. -/
def expected_counts_for_one_pick (fuel : ℕ) (root_tc : String) (t : Table)
    (players : Int) (memo : Memo) : Except PyErr (Dict × Memo) :=
  match outcome_probs root_tc t players with
  | .error e => .error e
  | .ok probs => onePickLoop fuel t players probs [] memo

/-- The pick count `expected_counts_per_kill` actually aggregates with: the
declared Picks, decremented by one (floored at zero) when positive and the
row's Item1 value begins with the reserved gold marker. -/
def effectivePicks (row : TCRow) : Int :=
  let picks := getPicks row
  if 0 < picks ∧ pyStartsWith (row.itemCols.headD "") "gld" then max 0 (picks - 1)
  else picks

/-- The inner Picks count the negative-picks loop uses for a rolled entry. -/
def innerP (t : Table) (tc : String) : Int :=
  match lookupRow t tc with
  | some row => getPicks row
  | none => 1

/-- The deterministic repeat sequence of the negative-picks branch: every
listed outcome repeated its weight's many times, concatenated in listed
order (`rollseq.extend([tc] * n)`). -/
def rollSeq (listed : List (String × Int)) : List String :=
  listed.foldl (fun acc kv => acc ++ List.replicate kv.2.toNat kv.1) []

/-- The loop of the negative-picks branch over the truncated roll sequence. -/
def negLoop (fuel : ℕ) (t : Table) (players : Int) :
    List String → Dict → Memo → Except PyErr (Dict × Memo)
  | [], out, memo => .ok (out, memo)
  | tc :: rest, out, memo =>
    match leaf_dist fuel tc t players memo with
    | .error e => .error e
    | .ok dm => negLoop fuel t players rest (accumScaled (innerP t tc : ℚ) dm.1 out) dm.2

/-- Mirrors `expected_counts_per_kill(root_tc, tcdict, players)`. -/
def expected_counts_per_kill (fuel : ℕ) (root_tc : String) (t : Table)
    (players : Int) : Except PyErr Dict :=
  match lookupRow t root_tc with
  | none => .error (.keyError root_tc)
  | some row =>
    let picks := effectivePicks row
    if picks < 0 then
      match negLoop fuel t players ((rollSeq (listedPairs row)).take picks.natAbs) [] [] with
      | .error e => .error e
      | .ok dm => .ok dm.1
    else
      match expected_counts_for_one_pick fuel root_tc t players [] with
      | .error e => .error e
      | .ok dm => .ok (dm.1.map (fun kv => (kv.1, kv.2 * (picks : ℚ))))

/-- The adjusted no-drop weight as claim C4's sentence reads, with the
exponent `p/2 + 0.5` rounded to the nearest integer (instead of the code's
truncation); the other steps are unchanged. -/
def nodropWeightSpecRound (nodrop_orig sumprobs players : Int) : Int :=
  let pclamp : Int := max 1 (min 8 players)
  let nd_exp : ℕ := (round ((pclamp : ℚ) / 2 + 1/2)).toNat
  let ratio : ℚ := ((nodrop_orig : ℚ) / ((nodrop_orig : ℚ) + (sumprobs : ℚ))) ^ nd_exp
  round (ratio / (1 - ratio) * (sumprobs : ℚ))

/-- One resolution edge of the table: `b` is a listed outcome of row `a`. -/
def edgeT (t : Table) (a b : String) : Prop :=
  ∃ row, lookupRow t a = some row ∧ b ∈ (listedPairs row).map Prod.fst

/-- Reachability along resolution edges. -/
def Reaches (t : Table) : String → String → Prop := Relation.ReflTransGen (edgeT t)

/-- A structurally sane row: listed weights and the raw no-drop weight are
nonnegative. -/
def RowNonneg (row : TCRow) : Prop :=
  (∀ kv ∈ listedPairs row, 0 ≤ kv.2) ∧ ∀ nd0, row.noDrop = some nd0 → 0 ≤ nd0

/-- A row that loses no probability mass: its listed outcomes are pairwise
distinct, it carries no nonzero raw no-drop weight, and it lists at least
one outcome (a row with no entries resolves to the empty distribution and
so drops all mass). -/
def RowExact (row : TCRow) : Prop :=
  ((listedPairs row).map Prod.fst).Nodup ∧ (row.noDrop = none ∨ row.noDrop = some 0) ∧
    listedPairs row ≠ []

/-- Every row reachable from `tc` has nonnegative weights. -/
def NonnegFrom (t : Table) (tc : String) : Prop :=
  ∀ n row, Reaches t tc n → lookupRow t n = some row → RowNonneg row

/-- Every row reachable from `tc` is exact in the sense of `RowExact`. -/
def ExactFrom (t : Table) (tc : String) : Prop :=
  ∀ n row, Reaches t tc n → lookupRow t n = some row → RowExact row

/-- The pure unmemoised recursion converges to the distribution `d` at `tc`
once given enough fuel. -/
def Conv (t : Table) (players : Int) (tc : String) (d : Dict) : Prop :=
  ∃ F, ∀ G, F ≤ G → leafPure G tc t players = .ok d

/-- Every entry of the memo is the converged pure distribution of its key;
this is what earlier `leaf_dist` calls (from an empty memo) produce. -/
def Coherent (t : Table) (memo : Memo) : Prop :=
  ∀ tc players d, memoLookup memo (tc, players) = some d → Conv t players tc d

/-- Sum of the weights of the non-empty outcomes of a distribution list. -/
def sumNE (l : List (String × ℚ)) : ℚ :=
  (l.map (fun kv => if kv.1 = "" then 0 else kv.2)).sum

/-- The player-count exponent `int(players/2.0 + 0.5)` after clamping. -/
def ndExpOf (players : Int) : ℕ := (⌊((max 1 (min 8 players) : ℤ) : ℚ) / 2 + 1/2⌋).toNat

/-- The base `nodrop_orig / (nodrop_orig + sumprobs)` of the adjustment. -/
def baseOf (nd s : Int) : ℚ := (nd : ℚ) / ((nd : ℚ) + (s : ℚ))

/-- The `ratio` of the adjustment. -/
def ratioOf (nd s p : Int) : ℚ := (baseOf nd s) ^ (ndExpOf p)

/-! ### Concrete fixtures used by witnesses and counterexamples -/

/-- A root row with Picks 2 and one terminal outcome. -/
def rowC1 : TCRow := ⟨["a"], [1], none, some 2⟩

/-- A one-row table for the positive-picks witness. -/
def tblC1 : Table := [("R", rowC1)]

/-- A root row with Picks -3 and two terminal outcomes of weights 2 and 1. -/
def rowC2 : TCRow := ⟨["X", "Y"], [2, 1], none, some (-3)⟩

/-- A one-row table for the negative-picks witness. -/
def tblC2 : Table := [("R", rowC2)]

/-- An act-boss style row: Picks 7 with a gold first outcome. -/
def rowC3 : TCRow := ⟨["gld,mul=1280", "a"], [3, 1], none, some 7⟩

/-- A row listing the same outcome name twice. -/
def rowDup : TCRow := ⟨["a", "a"], [1, 1], none, none⟩

/-- A one-row table whose root repeats an outcome name. -/
def tblDup : Table := [("D", rowDup)]

/-- A table with a negative listed weight feeding a lossy child row. -/
def tblNeg : Table := [("T", ⟨["x", "S"], [-1, 2], none, none⟩), ("S", ⟨["y"], [1], some 14, none⟩)]

/-- A root row referencing an identifier that is in no table. -/
def rowGhost : TCRow := ⟨["ghost"], [1], none, none⟩

/-- A one-row table for the unknown-reference counterexample. -/
def tblGhost : Table := [("R8", rowGhost)]

/-- A row with zero listed weight and a positive raw no-drop weight, forcing
the adjustment ratio to reach exactly 1. -/
def rowZ : TCRow := ⟨["a"], [0], some 5, none⟩

/-- A one-row table for the division-by-zero counterexample. -/
def tblZ : Table := [("T9", rowZ)]

/-- A plain row with a single terminal outcome of weight 1. -/
def rowA : TCRow := ⟨["x"], [1], none, none⟩

/-- A one-row table used by several witnesses. -/
def tblA : Table := [("A", rowA)]

/-- A row with no listed outcomes and no no-drop weight. -/
def rowEmpty : TCRow := ⟨[], [], none, none⟩

/-- A one-row table whose root lists nothing at all. -/
def tblEmpty : Table := [("E", rowEmpty)]

/-! ### Association-list dictionary lemmas -/

theorem dget_dset (d : Dict) (k : String) (v : ℚ) (q : String) :
    dget (dset d k v) q = if k = q then some v else dget d q := by
  induction d with
  | nil => simp [dset, dget]
  | cons hd tl ih =>
    obtain ⟨a, b⟩ := hd
    by_cases hak : a = k
    · subst hak
      by_cases haq : a = q
      · subst haq
        simp [dset, dget]
      · simp [dset, dget, haq]
    · by_cases haq : a = q
      · subst haq
        have hkq : ¬ k = a := fun h => hak h.symm
        simp [dset, dget, hak, hkq]
      · simp [dset, dget, hak, haq, ih]

theorem dval_dset (d : Dict) (k : String) (v : ℚ) (q : String) :
    dval (dset d k v) q = if k = q then v else dval d q := by
  unfold dval
  rw [dget_dset]
  by_cases h : k = q <;> simp [h]

theorem dval_dadd (d : Dict) (k : String) (v : ℚ) (q : String) :
    dval (dadd d k v) q = dval d q + if k = q then v else 0 := by
  unfold dadd
  rw [dval_dset]
  by_cases h : k = q
  · subst h; simp
  · simp [h]

theorem dkeys_dset (d : Dict) (k : String) (v : ℚ) :
    dkeys (dset d k v) = if k ∈ dkeys d then dkeys d else dkeys d ++ [k] := by
  induction d with
  | nil => simp [dset, dkeys]
  | cons hd tl ih =>
    obtain ⟨a, b⟩ := hd
    by_cases hak : a = k
    · subst hak
      simp [dset, dkeys]
    · have hka : ¬ k = a := fun h => hak h.symm
      simp only [dset, if_neg hak, dkeys, List.map_cons] at ih ⊢
      rw [ih]
      by_cases hmem : k ∈ List.map Prod.fst tl
      · simp [List.mem_cons, hka, hmem]
      · simp [List.mem_cons, hka, hmem]

theorem dnodup_dset (d : Dict) (k : String) (v : ℚ) (h : DNodup d) :
    DNodup (dset d k v) := by
  unfold DNodup at h ⊢
  rw [dkeys_dset]
  by_cases hmem : k ∈ dkeys d
  · simpa [hmem] using h
  · simp only [if_neg hmem]
    rw [List.nodup_append]
    exact ⟨h, List.nodup_singleton k, by
      intro x hx hx'
      simp only [List.mem_singleton] at hx'
      subst hx'
      exact hmem hx⟩

theorem dnodup_dadd (d : Dict) (k : String) (v : ℚ) (h : DNodup d) :
    DNodup (dadd d k v) := dnodup_dset d k _ h

theorem dsum_cons (a : String) (b : ℚ) (d : Dict) : dsum ((a, b) :: d) = b + dsum d := by
  simp [dsum]

theorem dval_cons (a : String) (b : ℚ) (d : Dict) (q : String) :
    dval ((a, b) :: d) q = if a = q then b else dval d q := by
  by_cases h : a = q <;> simp [dval, dget, h]

theorem dsum_dset (d : Dict) (k : String) (v : ℚ) :
    dsum (dset d k v) = dsum d + v - dval d k := by
  induction d with
  | nil => simp [dset, dsum, dval, dget]
  | cons hd tl ih =>
    obtain ⟨a, b⟩ := hd
    by_cases hak : a = k
    · subst hak
      have hset : dset ((a, b) :: tl) a v = (a, v) :: tl := by simp [dset]
      have hval : dval ((a, b) :: tl) a = b := by simp [dval_cons]
      rw [hset, dsum_cons, dsum_cons, hval]
      ring
    · have hset : dset ((a, b) :: tl) k v = (a, b) :: dset tl k v := by simp [dset, hak]
      have hval : dval ((a, b) :: tl) k = dval tl k := by simp [dval_cons, hak]
      rw [hset, dsum_cons, dsum_cons, ih, hval]
      ring

theorem dsum_dadd (d : Dict) (k : String) (v : ℚ) : dsum (dadd d k v) = dsum d + v := by
  unfold dadd
  rw [dsum_dset]
  ring

theorem mem_dset (d : Dict) (k : String) (v : ℚ) (x : String × ℚ) (hx : x ∈ dset d k v) :
    x = (k, v) ∨ x ∈ d := by
  induction d with
  | nil => simpa [dset] using hx
  | cons hd tl ih =>
    obtain ⟨a, b⟩ := hd
    by_cases hak : a = k
    · subst hak
      have hset : dset ((a, b) :: tl) a v = (a, v) :: tl := by simp [dset]
      rw [hset, List.mem_cons] at hx
      rcases hx with h | h
      · exact Or.inl h
      · exact Or.inr (List.mem_cons_of_mem _ h)
    · have hset : dset ((a, b) :: tl) k v = (a, b) :: dset tl k v := by simp [dset, hak]
      rw [hset, List.mem_cons] at hx
      rcases hx with h | h
      · subst h
        exact Or.inr (List.mem_cons_self _ _)
      · rcases ih h with h' | h'
        · exact Or.inl h'
        · exact Or.inr (List.mem_cons_of_mem _ h')

theorem dval_nonneg (d : Dict) (k : String) (h : DNonneg d) : 0 ≤ dval d k := by
  induction d with
  | nil => simp [dval, dget]
  | cons hd tl ih =>
    obtain ⟨a, b⟩ := hd
    rw [dval_cons]
    by_cases hak : a = k
    · simpa [hak] using h (a, b) (List.mem_cons_self _ _)
    · simp only [if_neg hak]
      exact ih (fun kv hkv => h kv (List.mem_cons_of_mem _ hkv))

theorem dnonneg_dset (d : Dict) (k : String) (v : ℚ) (h : DNonneg d) (hv : 0 ≤ v) :
    DNonneg (dset d k v) := by
  intro x hx
  rcases mem_dset d k v x hx with h' | h'
  · subst h'; exact hv
  · exact h x h'

theorem dnonneg_dadd (d : Dict) (k : String) (v : ℚ) (h : DNonneg d) (hv : 0 ≤ v) :
    DNonneg (dadd d k v) :=
  dnonneg_dset d k _ h (add_nonneg (dval_nonneg d k h) hv)

theorem dsum_nonneg (d : Dict) (h : DNonneg d) : 0 ≤ dsum d := by
  induction d with
  | nil => simp [dsum]
  | cons hd tl ih =>
    obtain ⟨a, b⟩ := hd
    rw [dsum_cons]
    exact add_nonneg (h (a, b) (List.mem_cons_self _ _))
      (ih (fun kv hkv => h kv (List.mem_cons_of_mem _ hkv)))

theorem dget_of_not_mem (d : Dict) (k : String) (h : k ∉ dkeys d) : dget d k = none := by
  induction d with
  | nil => rfl
  | cons hd tl ih =>
    obtain ⟨a, b⟩ := hd
    simp only [dkeys, List.map_cons, List.mem_cons] at h
    push_neg at h
    have hak : ¬ a = k := fun h' => h.1 h'.symm
    simp only [dget, if_neg hak]
    exact ih h.2

theorem dval_of_not_mem (d : Dict) (k : String) (h : k ∉ dkeys d) : dval d k = 0 := by
  simp [dval, dget_of_not_mem d k h]

theorem keys_dset_mem (d : Dict) (k : String) (v : ℚ) (x : String)
    (hx : x ∈ dkeys (dset d k v)) : x ∈ dkeys d ∨ x = k := by
  rw [dkeys_dset] at hx
  by_cases hmem : k ∈ dkeys d
  · simp only [if_pos hmem] at hx
    exact Or.inl hx
  · simp only [if_neg hmem, List.mem_append, List.mem_singleton] at hx
    exact hx

theorem dset_of_not_mem (d : Dict) (k : String) (v : ℚ) (h : k ∉ dkeys d) :
    dset d k v = d ++ [(k, v)] := by
  induction d with
  | nil => rfl
  | cons hd tl ih =>
    obtain ⟨a, b⟩ := hd
    simp only [dkeys, List.map_cons, List.mem_cons] at h
    push_neg at h
    have hak : ¬ a = k := fun h' => h.1 h'.symm
    simp only [dset, if_neg hak, List.cons_append, List.cons.injEq, true_and]
    exact ih h.2

/-! ### Lemmas on the accumulation loop -/

theorem accumScaled_nil (c : ℚ) (dist : Dict) : accumScaled c [] dist = dist := rfl

theorem accumScaled_cons (c : ℚ) (a : String) (b : ℚ) (sub : Dict) (dist : Dict) :
    accumScaled c ((a, b) :: sub) dist = accumScaled c sub (dadd dist a (c * b)) := rfl

theorem dsum_accumScaled (c : ℚ) (sub : Dict) : ∀ dist : Dict,
    dsum (accumScaled c sub dist) = dsum dist + c * dsum sub := by
  induction sub with
  | nil => intro dist; simp [accumScaled_nil, dsum]
  | cons hd tl ih =>
    intro dist
    obtain ⟨a, b⟩ := hd
    rw [accumScaled_cons, ih, dsum_dadd, dsum_cons]
    ring

theorem dnodup_accumScaled (c : ℚ) (sub : Dict) : ∀ dist : Dict,
    DNodup dist → DNodup (accumScaled c sub dist) := by
  induction sub with
  | nil => intro dist h; exact h
  | cons hd tl ih =>
    intro dist h
    obtain ⟨a, b⟩ := hd
    rw [accumScaled_cons]
    exact ih _ (dnodup_dadd _ _ _ h)

theorem dnonneg_accumScaled (c : ℚ) (hc : 0 ≤ c) (sub : Dict) : ∀ dist : Dict,
    DNonneg dist → DNonneg sub → DNonneg (accumScaled c sub dist) := by
  induction sub with
  | nil => intro dist h _; exact h
  | cons hd tl ih =>
    intro dist h hsub
    obtain ⟨a, b⟩ := hd
    rw [accumScaled_cons]
    refine ih _ (dnonneg_dadd _ _ _ h ?_) (fun kv hkv => hsub kv (List.mem_cons_of_mem _ hkv))
    exact mul_nonneg hc (hsub (a, b) (List.mem_cons_self _ _))

theorem dval_accumScaled (c : ℚ) (sub : Dict) : ∀ dist : Dict, DNodup sub → ∀ q,
    dval (accumScaled c sub dist) q = dval dist q + c * dval sub q := by
  induction sub with
  | nil => intro dist _ q; simp [accumScaled_nil, dval, dget]
  | cons hd tl ih =>
    intro dist hnd q
    obtain ⟨a, b⟩ := hd
    have hnd' : DNodup tl := by
      unfold DNodup dkeys at hnd ⊢
      exact (List.nodup_cons.mp hnd).2
    have hamem : a ∉ dkeys tl := by
      unfold DNodup dkeys at hnd
      exact (List.nodup_cons.mp hnd).1
    rw [accumScaled_cons, ih _ hnd' q, dval_dadd, dval_cons]
    by_cases haq : a = q
    · subst haq
      rw [dval_of_not_mem tl a hamem]
      simp
    · simp [haq]

/-! ### Memo lemmas -/

theorem memoLookup_memoInsert (m : Memo) (k : String × Int) (d : Dict) (q : String × Int) :
    memoLookup (memoInsert m k d) q = if k = q then some d else memoLookup m q := by
  induction m with
  | nil => simp [memoInsert, memoLookup]
  | cons hd tl ih =>
    obtain ⟨a, e⟩ := hd
    by_cases hak : a = k
    · subst hak
      by_cases haq : a = q
      · subst haq
        simp [memoInsert, memoLookup]
      · simp [memoInsert, memoLookup, haq]
    · by_cases haq : a = q
      · subst haq
        have hkq : ¬ k = a := fun h => hak h.symm
        simp [memoInsert, memoLookup, hak, hkq]
      · simp [memoInsert, memoLookup, hak, haq, ih]

/-! ### Rounding lemmas -/

theorem pyround_le (q : ℚ) : (pyround q : ℚ) ≤ q + 1/2 := by
  have hfl : (⌊q⌋ : ℚ) ≤ q := Int.floor_le q
  have hfu : q < ⌊q⌋ + 1 := Int.lt_floor_add_one q
  simp only [pyround]
  split_ifs with h1 h2 h3
  · linarith
  · push_cast
    linarith
  · linarith
  · push_cast
    push_neg at h1 h2
    linarith

theorem le_pyround (q : ℚ) : q - 1/2 ≤ (pyround q : ℚ) := by
  have hfl : (⌊q⌋ : ℚ) ≤ q := Int.floor_le q
  have hfu : q < ⌊q⌋ + 1 := Int.lt_floor_add_one q
  simp only [pyround]
  split_ifs with h1 h2 h3
  · linarith
  · push_cast
    linarith
  · push_neg at h1 h2
    linarith
  · push_cast
    linarith

theorem pyround_mono {a b : ℚ} (h : a ≤ b) : pyround a ≤ pyround b := by
  by_contra hcon
  push_neg at hcon
  have h1 : (pyround b : ℚ) + 1 ≤ (pyround a : ℚ) := by
    exact_mod_cast Int.add_one_le_iff.mpr hcon
  have h2 := pyround_le a
  have h3 := le_pyround b
  have hba : b ≤ a := by linarith
  have heq : a = b := le_antisymm h hba
  rw [heq] at hcon
  exact lt_irrefl _ hcon

theorem pyround_nonneg {q : ℚ} (hq : 0 ≤ q) : 0 ≤ pyround q := by
  have hf : (0 : ℤ) ≤ ⌊q⌋ := Int.floor_nonneg.mpr hq
  simp only [pyround]
  split_ifs <;> omega

theorem pyround_zero : pyround 0 = 0 := by norm_num [pyround]

theorem pyround_eval_low (q : ℚ) (n : ℤ) (h1 : (n : ℚ) ≤ q) (h2 : q < (n : ℚ) + 1/2) :
    pyround q = n := by
  have hf : ⌊q⌋ = n := Int.floor_eq_iff.mpr ⟨h1, by linarith⟩
  simp only [pyround]
  rw [hf, if_pos (by linarith)]

theorem pyround_eval_high (q : ℚ) (n : ℤ) (h1 : (n : ℚ) + 1/2 < q) (h2 : q < (n : ℚ) + 1) :
    pyround q = n + 1 := by
  have hf : ⌊q⌋ = n := Int.floor_eq_iff.mpr ⟨by linarith, by linarith⟩
  simp only [pyround]
  rw [hf, if_neg (by linarith), if_pos (by linarith)]

/-! ### Lemmas on the no-drop adjustment -/

theorem nodrop_eq_clean (nd s p : Int) :
    nodrop_adjusted_weight nd s p =
      if (nd : ℚ) + (s : ℚ) = 0 then .error .zeroDivisionError
      else if ratioOf nd s p = 1 then .error .zeroDivisionError
      else .ok (pyround (ratioOf nd s p / (1 - ratioOf nd s p) * (s : ℚ))) := rfl

theorem nodrop_ok_elim (nd s p w : Int) (h : nodrop_adjusted_weight nd s p = .ok w) :
    (nd : ℚ) + (s : ℚ) ≠ 0 ∧ ratioOf nd s p ≠ 1 ∧
      w = pyround (ratioOf nd s p / (1 - ratioOf nd s p) * (s : ℚ)) := by
  rw [nodrop_eq_clean] at h
  by_cases h1 : (nd : ℚ) + (s : ℚ) = 0
  · rw [if_pos h1] at h
    exact Except.noConfusion h
  · rw [if_neg h1] at h
    by_cases h2 : ratioOf nd s p = 1
    · rw [if_pos h2] at h
      exact Except.noConfusion h
    · rw [if_neg h2] at h
      exact ⟨h1, h2, (Except.ok.inj h).symm⟩

theorem clamp_ge_one (p : Int) : 1 ≤ max 1 (min 8 p) := le_max_left _ _

theorem clamp_le_eight (p : Int) : max 1 (min 8 p) ≤ 8 :=
  max_le (by norm_num) (min_le_left _ _)

theorem ndExpOf_pos (p : Int) : 1 ≤ ndExpOf p := by
  unfold ndExpOf
  have hc : (1 : ℚ) ≤ ((max 1 (min 8 p) : ℤ) : ℚ) := by exact_mod_cast clamp_ge_one p
  have h1 : (1 : ℤ) ≤ ⌊((max 1 (min 8 p) : ℤ) : ℚ) / 2 + 1/2⌋ := by
    apply Int.le_floor.mpr
    rw [Int.cast_one]
    linarith
  omega

theorem ndExpOf_mono {p q : Int} (h : p ≤ q) : ndExpOf p ≤ ndExpOf q := by
  unfold ndExpOf
  have hc : (max 1 (min 8 p) : Int) ≤ max 1 (min 8 q) :=
    max_le_max le_rfl (min_le_min le_rfl h)
  have hq : ((max 1 (min 8 p) : ℤ) : ℚ) / 2 + 1/2 ≤ ((max 1 (min 8 q) : ℤ) : ℚ) / 2 + 1/2 := by
    have : ((max 1 (min 8 p) : ℤ) : ℚ) ≤ ((max 1 (min 8 q) : ℤ) : ℚ) := by exact_mod_cast hc
    linarith
  have := Int.floor_le_floor hq
  omega

theorem ndExpOf_eq_truncation (p : Int) : ndExpOf p = ((max 1 (min 8 p)).toNat + 1) / 2 := by
  unfold ndExpOf
  have h1 := clamp_ge_one p
  have h8 := clamp_le_eight p
  set c : Int := max 1 (min 8 p) with hc
  clear_value c
  interval_cases c <;> norm_num <;> omega

theorem baseOf_nonneg (nd s : Int) (hnd : 0 ≤ nd) (hs : 0 ≤ s) : 0 ≤ baseOf nd s := by
  unfold baseOf
  have h1 : (0 : ℚ) ≤ (nd : ℚ) := by exact_mod_cast hnd
  have h2 : (0 : ℚ) ≤ (s : ℚ) := by exact_mod_cast hs
  exact div_nonneg h1 (by linarith)

theorem baseOf_le_one (nd s : Int) (hnd : 0 ≤ nd) (hs : 0 ≤ s)
    (hden : (nd : ℚ) + (s : ℚ) ≠ 0) : baseOf nd s ≤ 1 := by
  unfold baseOf
  have h1 : (0 : ℚ) ≤ (nd : ℚ) := by exact_mod_cast hnd
  have h2 : (0 : ℚ) ≤ (s : ℚ) := by exact_mod_cast hs
  have hpos : 0 < (nd : ℚ) + (s : ℚ) := lt_of_le_of_ne (by linarith) (Ne.symm hden)
  rw [div_le_one hpos]
  linarith

theorem baseOf_lt_one (nd s : Int) (hnd : 0 ≤ nd) (hs : 0 < s) : baseOf nd s < 1 := by
  unfold baseOf
  have h1 : (0 : ℚ) ≤ (nd : ℚ) := by exact_mod_cast hnd
  have h2 : (0 : ℚ) < (s : ℚ) := by exact_mod_cast hs
  have hpos : 0 < (nd : ℚ) + (s : ℚ) := by linarith
  rw [div_lt_one hpos]
  linarith

theorem ratioOf_nonneg (nd s p : Int) (hnd : 0 ≤ nd) (hs : 0 ≤ s) : 0 ≤ ratioOf nd s p :=
  pow_nonneg (baseOf_nonneg nd s hnd hs) _

theorem ratioOf_le_one (nd s p : Int) (hnd : 0 ≤ nd) (hs : 0 ≤ s)
    (hden : (nd : ℚ) + (s : ℚ) ≠ 0) : ratioOf nd s p ≤ 1 :=
  pow_le_one₀ (baseOf_nonneg nd s hnd hs) (baseOf_le_one nd s hnd hs hden)

theorem ratioOf_lt_one (nd s p : Int) (hnd : 0 ≤ nd) (hs : 0 < s) : ratioOf nd s p < 1 :=
  pow_lt_one₀ (baseOf_nonneg nd s hnd hs.le) (baseOf_lt_one nd s hnd hs)
    (by have := ndExpOf_pos p; omega)

theorem nodrop_weight_nonneg (nd s p w : Int) (hnd : 0 ≤ nd) (hs : 0 ≤ s)
    (h : nodrop_adjusted_weight nd s p = .ok w) : 0 ≤ w := by
  obtain ⟨h1, h2, hw⟩ := nodrop_ok_elim nd s p w h
  rw [hw]
  apply pyround_nonneg
  have hrn := ratioOf_nonneg nd s p hnd hs
  have hr1 : ratioOf nd s p < 1 := lt_of_le_of_ne (ratioOf_le_one nd s p hnd hs h1) h2
  have hsq : (0 : ℚ) ≤ (s : ℚ) := by exact_mod_cast hs
  exact mul_nonneg (div_nonneg hrn (by linarith)) hsq

theorem nodrop_weight_zero (s p : Int) (hs : (s : ℚ) ≠ 0) :
    nodrop_adjusted_weight 0 s p = .ok 0 := by
  rw [nodrop_eq_clean]
  have h0 : ((0 : ℤ) : ℚ) + (s : ℚ) ≠ 0 := by simpa using hs
  have hr : ratioOf 0 s p = 0 := by
    unfold ratioOf baseOf
    have he : ndExpOf p ≠ 0 := by have := ndExpOf_pos p; omega
    simp [zero_pow he]
  rw [if_neg h0, if_neg (by rw [hr]; norm_num)]
  rw [hr]
  simp [pyround_zero]

/-! ### Lemmas on the outcome distribution -/

theorem dkeys_append (d e : Dict) : dkeys (d ++ e) = dkeys d ++ dkeys e := by
  simp [dkeys]

theorem dsum_append (d e : Dict) : dsum (d ++ e) = dsum d + dsum e := by
  simp [dsum]

theorem listedPairs_key_ne (row : TCRow) (kv : String × Int) (h : kv ∈ listedPairs row) :
    kv.1 ≠ "" := by
  unfold listedPairs at h
  have h1 : kv.1 ∈ row.itemCols.filter (fun s => !(s == "")) := (List.of_mem_zip h).1
  have h2 := List.of_mem_filter h1
  simpa using h2

theorem sumWeights_nil : sumWeights [] = 0 := rfl

theorem sumWeights_cons (kv : String × Int) (l : List (String × Int)) :
    sumWeights (kv :: l) = kv.2 + sumWeights l := by
  simp [sumWeights]

theorem sumWeights_append (l e : List (String × Int)) :
    sumWeights (l ++ e) = sumWeights l + sumWeights e := by
  simp [sumWeights]

theorem sumWeights_nonneg (l : List (String × Int)) (h : ∀ kv ∈ l, 0 ≤ kv.2) :
    0 ≤ sumWeights l := by
  induction l with
  | nil => simp [sumWeights]
  | cons kv rest ih =>
    rw [sumWeights_cons]
    exact add_nonneg (h kv (List.mem_cons_self _ _))
      (ih (fun x hx => h x (List.mem_cons_of_mem _ hx)))

theorem dsum_map_div (entries : List (String × Int)) (c : ℚ) :
    dsum (entries.map (fun kv => (kv.1, (kv.2 : ℚ) / c))) = ((sumWeights entries : ℤ) : ℚ) / c := by
  induction entries with
  | nil => simp [dsum, sumWeights]
  | cons kv rest ih =>
    obtain ⟨a, b⟩ := kv
    rw [List.map_cons, dsum_cons, ih, sumWeights_cons]
    push_cast
    ring

theorem sumNE_nil : sumNE [] = 0 := rfl

theorem sumNE_cons (o : String) (pr : ℚ) (rest : List (String × ℚ)) :
    sumNE ((o, pr) :: rest) = (if o = "" then 0 else pr) + sumNE rest := by
  simp [sumNE]

theorem sumNE_le_dsum (L : List (String × ℚ)) (h : ∀ kv ∈ L, 0 ≤ kv.2) : sumNE L ≤ dsum L := by
  induction L with
  | nil => simp [sumNE, dsum]
  | cons kv rest ih =>
    obtain ⟨o, pr⟩ := kv
    rw [sumNE_cons, dsum_cons]
    have h1 : 0 ≤ pr := h (o, pr) (List.mem_cons_self _ _)
    have h2 := ih (fun x hx => h x (List.mem_cons_of_mem _ hx))
    by_cases ho : o = ""
    · simp only [if_pos ho]
      linarith
    · simp only [if_neg ho]
      linarith

theorem sumNE_nonneg (L : List (String × ℚ)) (h : ∀ kv ∈ L, 0 ≤ kv.2) : 0 ≤ sumNE L := by
  induction L with
  | nil => simp [sumNE]
  | cons kv rest ih =>
    obtain ⟨o, pr⟩ := kv
    rw [sumNE_cons]
    have h1 : 0 ≤ pr := h (o, pr) (List.mem_cons_self _ _)
    have h2 := ih (fun x hx => h x (List.mem_cons_of_mem _ hx))
    by_cases ho : o = "" <;> simp [ho] <;> linarith

theorem sumNE_map_div (entries : List (String × Int)) (c : ℚ)
    (hne : ∀ kv ∈ entries, kv.1 ≠ "") :
    sumNE (entries.map (fun kv => (kv.1, (kv.2 : ℚ) / c))) = ((sumWeights entries : ℤ) : ℚ) / c := by
  induction entries with
  | nil => simp [sumNE, sumWeights]
  | cons kv rest ih =>
    obtain ⟨a, b⟩ := kv
    have ha : a ≠ "" := hne (a, b) (List.mem_cons_self _ _)
    rw [List.map_cons, sumNE_cons, ih (fun x hx => hne x (List.mem_cons_of_mem _ hx)),
      sumWeights_cons, if_neg ha]
    push_cast
    ring

theorem sumNE_append_nodrop (l : List (String × ℚ)) (x : ℚ) :
    sumNE (l ++ [("", x)]) = sumNE l := by
  simp [sumNE]

theorem bfold_nodup (c : ℚ) (entries : List (String × Int)) : ∀ d : Dict, DNodup d →
    DNodup (entries.foldl (fun d kv => dset d kv.1 ((kv.2 : ℚ) / c)) d) := by
  induction entries with
  | nil => intro d h; exact h
  | cons kv rest ih =>
    intro d h
    rw [List.foldl_cons]
    exact ih _ (dnodup_dset _ _ _ h)

theorem bfold_keys (c : ℚ) (entries : List (String × Int)) : ∀ (d : Dict) (x : String),
    x ∈ dkeys (entries.foldl (fun d kv => dset d kv.1 ((kv.2 : ℚ) / c)) d) →
    x ∈ dkeys d ∨ x ∈ entries.map Prod.fst := by
  induction entries with
  | nil => intro d x hx; exact Or.inl hx
  | cons kv rest ih =>
    intro d x hx
    rw [List.foldl_cons] at hx
    rcases ih _ x hx with h | h
    · rcases keys_dset_mem _ _ _ _ h with h' | h'
      · exact Or.inl h'
      · right
        rw [h']
        simp
    · right
      simp [List.mem_cons, h]

theorem bfold_nonneg (c : ℚ) (hc : 0 < c) (entries : List (String × Int)) : ∀ d : Dict,
    DNonneg d → (∀ kv ∈ entries, 0 ≤ kv.2) →
    DNonneg (entries.foldl (fun d kv => dset d kv.1 ((kv.2 : ℚ) / c)) d) := by
  induction entries with
  | nil => intro d h _; exact h
  | cons kv rest ih =>
    intro d h hw
    rw [List.foldl_cons]
    refine ih _ (dnonneg_dset _ _ _ h ?_) (fun x hx => hw x (List.mem_cons_of_mem _ hx))
    have : (0 : ℚ) ≤ (kv.2 : ℚ) := by exact_mod_cast hw kv (List.mem_cons_self _ _)
    exact div_nonneg this hc.le

theorem bfold_sum (c : ℚ) (hc : 0 < c) (entries : List (String × Int)) : ∀ d : Dict,
    DNonneg d → (∀ kv ∈ entries, 0 ≤ kv.2) →
    dsum (entries.foldl (fun d kv => dset d kv.1 ((kv.2 : ℚ) / c)) d) ≤
      dsum d + ((sumWeights entries : ℤ) : ℚ) / c := by
  induction entries with
  | nil => intro d _ _; simp [sumWeights]
  | cons kv rest ih =>
    intro d h hw
    rw [List.foldl_cons]
    have hv : (0 : ℚ) ≤ (kv.2 : ℚ) / c := by
      have : (0 : ℚ) ≤ (kv.2 : ℚ) := by exact_mod_cast hw kv (List.mem_cons_self _ _)
      exact div_nonneg this hc.le
    have h1 := ih (dset d kv.1 ((kv.2 : ℚ) / c)) (dnonneg_dset _ _ _ h hv)
      (fun x hx => hw x (List.mem_cons_of_mem _ hx))
    have h2 := dsum_dset d kv.1 ((kv.2 : ℚ) / c)
    have h3 := dval_nonneg d kv.1 h
    rw [sumWeights_cons]
    push_cast
    rw [add_div]
    linarith

theorem bfold_exact (c : ℚ) (entries : List (String × Int)) : ∀ d : Dict,
    (∀ kv ∈ entries, kv.1 ∉ dkeys d) → (entries.map Prod.fst).Nodup →
    entries.foldl (fun d kv => dset d kv.1 ((kv.2 : ℚ) / c)) d =
      d ++ entries.map (fun kv => (kv.1, (kv.2 : ℚ) / c)) := by
  induction entries with
  | nil => intro d _ _; simp
  | cons kv rest ih =>
    intro d hmem hnd
    rw [List.foldl_cons, dset_of_not_mem d kv.1 _ (hmem kv (List.mem_cons_self _ _))]
    have hnd' : (rest.map Prod.fst).Nodup := (List.nodup_cons.mp (by simpa using hnd)).2
    have hhd : kv.1 ∉ rest.map Prod.fst := (List.nodup_cons.mp (by simpa using hnd)).1
    rw [ih (d ++ [(kv.1, (kv.2 : ℚ) / c)]) ?_ hnd']
    · simp
    · intro x hx
      rw [dkeys_append]
      simp only [List.mem_append]
      push_neg
      constructor
      · exact hmem x (List.mem_cons_of_mem _ hx)
      · have hxne : x.1 ≠ kv.1 := by
          intro heq
          exact hhd (heq ▸ (List.mem_map.mpr ⟨x, hx, rfl⟩))
        simp [dkeys, hxne]

theorem buildProbDict_nodup (entries : List (String × Int)) (c : ℚ) :
    DNodup (buildProbDict entries c) :=
  bfold_nodup c entries [] (by simp [DNodup, dkeys])

theorem buildProbDict_keys (entries : List (String × Int)) (c : ℚ) (x : String)
    (hx : x ∈ dkeys (buildProbDict entries c)) : x ∈ entries.map Prod.fst := by
  rcases bfold_keys c entries [] x hx with h | h
  · simp [dkeys] at h
  · exact h

theorem buildProbDict_nonneg (entries : List (String × Int)) (c : ℚ) (hc : 0 < c)
    (hw : ∀ kv ∈ entries, 0 ≤ kv.2) : DNonneg (buildProbDict entries c) :=
  bfold_nonneg c hc entries [] (by intro kv hkv; cases hkv) hw

theorem buildProbDict_sum_le (entries : List (String × Int)) (c : ℚ) (hc : 0 < c)
    (hw : ∀ kv ∈ entries, 0 ≤ kv.2) :
    dsum (buildProbDict entries c) ≤ ((sumWeights entries : ℤ) : ℚ) / c := by
  have := bfold_sum c hc entries [] (by intro kv hkv; cases hkv) hw
  simpa [dsum] using this

theorem buildProbDict_exact (entries : List (String × Int)) (c : ℚ)
    (hnd : (entries.map Prod.fst).Nodup) :
    buildProbDict entries c = entries.map (fun kv => (kv.1, (kv.2 : ℚ) / c)) := by
  have := bfold_exact c entries [] (by intro kv _; simp [dkeys]) hnd
  simpa using this

theorem outcome_probs_ok_elim (tc : String) (t : Table) (players : Int) (probs : Dict)
    (h : outcome_probs tc t players = .ok probs) :
    ∃ row entries, lookupRow t tc = some row ∧
      ((row.noDrop = none ∧ entries = listedPairs row) ∨
        (∃ nd0 w, row.noDrop = some nd0 ∧
          nodrop_adjusted_weight nd0 (sumWeights (listedPairs row)) players = .ok w ∧
          entries = listedPairs row ++ [("", w)])) ∧
      (((sumWeights entries : ℤ) : ℚ) = 0 → entries = []) ∧
      probs = buildProbDict entries ((sumWeights entries : ℤ) : ℚ) := by
  unfold outcome_probs at h
  cases hrow : lookupRow t tc with
  | none =>
    rw [hrow] at h
    exact Except.noConfusion h
  | some row =>
    rw [hrow] at h
    dsimp only at h
    cases hnd : row.noDrop with
    | none =>
      rw [hnd] at h
      dsimp only at h
      by_cases hc : ((sumWeights (listedPairs row) : ℤ) : ℚ) = 0 ∧ listedPairs row ≠ []
      · rw [if_pos hc] at h
        exact Except.noConfusion h
      · rw [if_neg hc] at h
        refine ⟨row, listedPairs row, rfl, Or.inl ⟨hnd, rfl⟩, ?_, ?_⟩
        · intro hzero
          by_contra hne
          exact hc ⟨hzero, hne⟩
        · exact (Except.ok.inj h).symm
    | some nd0 =>
      rw [hnd] at h
      dsimp only at h
      cases hw : nodrop_adjusted_weight nd0 (sumWeights (listedPairs row)) players with
      | error e =>
        rw [hw] at h
        exact Except.noConfusion h
      | ok w =>
        rw [hw] at h
        dsimp only at h
        by_cases hc : ((sumWeights (listedPairs row ++ [("", w)]) : ℤ) : ℚ) = 0 ∧
          listedPairs row ++ [("", w)] ≠ []
        · rw [if_pos hc] at h
          exact Except.noConfusion h
        · rw [if_neg hc] at h
          refine ⟨row, listedPairs row ++ [("", w)], rfl, Or.inr ⟨nd0, w, hnd, hw, rfl⟩, ?_, ?_⟩
          · intro hzero
            by_contra hne
            exact hc ⟨hzero, hne⟩
          · exact (Except.ok.inj h).symm

/-! ### Soundness of the memoised Leaf Resolver against the pure recursion -/

theorem coherent_nil (t : Table) : Coherent t [] := by
  intro tc players d h
  exact Option.noConfusion h

theorem Conv_unique (t : Table) (p : Int) (tc : String) (d₁ d₂ : Dict)
    (h₁ : Conv t p tc d₁) (h₂ : Conv t p tc d₂) : d₁ = d₂ := by
  obtain ⟨F₁, hF₁⟩ := h₁
  obtain ⟨F₂, hF₂⟩ := h₂
  have e₁ := hF₁ (max F₁ F₂) (le_max_left _ _)
  have e₂ := hF₂ (max F₁ F₂) (le_max_right _ _)
  rw [e₁] at e₂
  exact Except.ok.inj e₂

theorem leafLoop_sound (t : Table) (players : Int) (fuel : ℕ)
    (IH : ∀ tc memo d m', Coherent t memo →
      leaf_dist fuel tc t players memo = .ok (d, m') → Conv t players tc d ∧ Coherent t m') :
    ∀ (L : List (String × ℚ)) (dist : Dict) (memo : Memo) (dist' : Dict) (m' : Memo),
      Coherent t memo →
      leafLoop (fun o m => leaf_dist fuel o t players m) t L dist memo = .ok (dist', m') →
      (∃ F, ∀ G, F ≤ G → leafLoopP (fun o => leafPure G o t players) t L dist = .ok dist') ∧
      Coherent t m' := by
  intro L
  induction L with
  | nil =>
    intro dist memo dist' m' hmemo h
    simp only [leafLoop] at h
    have hinj := Except.ok.inj h
    rw [Prod.mk.injEq] at hinj
    obtain ⟨rfl, rfl⟩ := hinj
    exact ⟨⟨0, fun G _ => rfl⟩, hmemo⟩
  | cons hd rest ih =>
    intro dist memo dist' m' hmemo h
    obtain ⟨o, pr⟩ := hd
    by_cases ho : o = ""
    · simp only [leafLoop, if_pos ho] at h
      obtain ⟨⟨F, hF⟩, hcoh⟩ := ih dist memo dist' m' hmemo h
      refine ⟨⟨F, fun G hG => ?_⟩, hcoh⟩
      simp only [leafLoopP, if_pos ho]
      exact hF G hG
    · simp only [leafLoop, if_neg ho] at h
      cases hrow : lookupRow t o with
      | none =>
        rw [hrow] at h
        dsimp only at h
        obtain ⟨⟨F, hF⟩, hcoh⟩ := ih _ memo dist' m' hmemo h
        refine ⟨⟨F, fun G hG => ?_⟩, hcoh⟩
        simp only [leafLoopP, if_neg ho]
        rw [hrow]
        exact hF G hG
      | some row =>
        rw [hrow] at h
        dsimp only at h
        cases hrec : leaf_dist fuel o t players memo with
        | error e =>
          rw [hrec] at h
          exact Except.noConfusion h
        | ok dm =>
          obtain ⟨sub, m₁⟩ := dm
          rw [hrec] at h
          dsimp only at h
          obtain ⟨hconv, hcoh₁⟩ := IH o memo sub m₁ hmemo hrec
          obtain ⟨⟨F₂, hF₂⟩, hcoh'⟩ := ih _ m₁ dist' m' hcoh₁ h
          obtain ⟨F₁, hF₁⟩ := hconv
          refine ⟨⟨max F₁ F₂, fun G hG => ?_⟩, hcoh'⟩
          simp only [leafLoopP, if_neg ho]
          rw [hrow]
          dsimp only
          rw [hF₁ G (le_trans (le_max_left _ _) hG)]
          dsimp only
          exact hF₂ G (le_trans (le_max_right _ _) hG)

theorem leaf_dist_sound (t : Table) (players : Int) :
    ∀ (fuel : ℕ) (tc : String) (memo : Memo) (d : Dict) (m' : Memo),
      Coherent t memo → leaf_dist fuel tc t players memo = .ok (d, m') →
      Conv t players tc d ∧ Coherent t m' := by
  intro fuel
  induction fuel with
  | zero =>
    intro tc memo d m' hmemo h
    exact Except.noConfusion h
  | succ fuel ih =>
    intro tc memo d m' hmemo h
    simp only [leaf_dist] at h
    by_cases htc : tc = ""
    · rw [if_pos htc] at h
      have hinj := Except.ok.inj h
      rw [Prod.mk.injEq] at hinj
      obtain ⟨rfl, rfl⟩ := hinj
      refine ⟨⟨1, fun G hG => ?_⟩, hmemo⟩
      cases G with
      | zero => omega
      | succ G' => simp [leafPure, htc]
    · rw [if_neg htc] at h
      cases hrow : lookupRow t tc with
      | none =>
        rw [hrow] at h
        dsimp only at h
        have hinj := Except.ok.inj h
        rw [Prod.mk.injEq] at hinj
        obtain ⟨rfl, rfl⟩ := hinj
        refine ⟨⟨1, fun G hG => ?_⟩, hmemo⟩
        cases G with
        | zero => omega
        | succ G' => simp [leafPure, htc, hrow]
      | some row =>
        rw [hrow] at h
        dsimp only at h
        cases hml : memoLookup memo (tc, players) with
        | some d0 =>
          rw [hml] at h
          dsimp only at h
          have hinj := Except.ok.inj h
          rw [Prod.mk.injEq] at hinj
          obtain ⟨rfl, rfl⟩ := hinj
          exact ⟨hmemo tc players d0 hml, hmemo⟩
        | none =>
          rw [hml] at h
          dsimp only at h
          cases hop : outcome_probs tc t players with
          | error e =>
            rw [hop] at h
            exact Except.noConfusion h
          | ok probs =>
            rw [hop] at h
            dsimp only at h
            cases hloop : leafLoop (fun o m => leaf_dist fuel o t players m) t probs [] memo with
            | error e =>
              rw [hloop] at h
              exact Except.noConfusion h
            | ok dm =>
              obtain ⟨dist, m₂⟩ := dm
              rw [hloop] at h
              dsimp only at h
              have hinj := Except.ok.inj h
              rw [Prod.mk.injEq] at hinj
              obtain ⟨rfl, rfl⟩ := hinj
              obtain ⟨⟨F, hF⟩, hcoh₂⟩ :=
                leafLoop_sound t players fuel ih probs [] memo dist m₂ hmemo hloop
              have hconv : Conv t players tc dist := by
                refine ⟨F + 1, fun G hG => ?_⟩
                cases G with
                | zero => omega
                | succ G' =>
                  have hG' : F ≤ G' := by omega
                  simp only [leafPure, if_neg htc]
                  rw [hrow]
                  dsimp only
                  rw [hop]
                  dsimp only
                  exact hF G' hG'
              refine ⟨hconv, ?_⟩
              intro tc' p' d' hml'
              rw [memoLookup_memoInsert] at hml'
              by_cases hkey : ((tc, players) : String × Int) = (tc', p')
              · rw [if_pos hkey] at hml'
                have hd' : dist = d' := Option.some.inj hml'
                rw [Prod.mk.injEq] at hkey
                obtain ⟨rfl, rfl⟩ := hkey
                rw [← hd']
                exact hconv
              · rw [if_neg hkey] at hml'
                exact hcoh₂ tc' p' d' hml'

/-! ### Bounds on the pure Leaf Resolver -/

theorem NonnegFrom_step (t : Table) (a b : String) (h : NonnegFrom t a) (e : edgeT t a b) :
    NonnegFrom t b := by
  intro n row hr hl
  exact h n row (Relation.ReflTransGen.head e hr) hl

theorem ExactFrom_step (t : Table) (a b : String) (h : ExactFrom t a) (e : edgeT t a b) :
    ExactFrom t b := by
  intro n row hr hl
  exact h n row (Relation.ReflTransGen.head e hr) hl

theorem map_fst_map_div (entries : List (String × Int)) (c : ℚ) :
    (entries.map (fun kv => (kv.1, (kv.2 : ℚ) / c))).map Prod.fst = entries.map Prod.fst := by
  induction entries with
  | nil => rfl
  | cons kv rest ih => simp [ih]

theorem edge_of_probs (t : Table) (tc : String) (players : Int) (probs : Dict)
    (h : outcome_probs tc t players = .ok probs) (kv : String × ℚ) (hmem : kv ∈ probs)
    (hne : kv.1 ≠ "") : edgeT t tc kv.1 := by
  obtain ⟨row, entries, hrow, hshape, htot, hbuild⟩ := outcome_probs_ok_elim tc t players probs h
  have hkey : kv.1 ∈ dkeys probs := List.mem_map.mpr ⟨kv, hmem, rfl⟩
  rw [hbuild] at hkey
  have hkey2 := buildProbDict_keys entries _ kv.1 hkey
  refine ⟨row, hrow, ?_⟩
  rcases hshape with ⟨_, rfl⟩ | ⟨nd0, w, _, _, rfl⟩
  · exact hkey2
  · rw [List.map_append] at hkey2
    rcases List.mem_append.mp hkey2 with h' | h'
    · exact h'
    · simp at h'
      exact absurd h' hne

theorem probs_props (t : Table) (tc : String) (players : Int) (probs : Dict) (row : TCRow)
    (h : outcome_probs tc t players = .ok probs) (hrow : lookupRow t tc = some row)
    (hrnn : RowNonneg row) :
    DNodup probs ∧ DNonneg probs ∧ dsum probs ≤ 1 ∧ (RowExact row → sumNE probs = 1) := by
  obtain ⟨row', entries, hrow', hshape, htot, hbuild⟩ := outcome_probs_ok_elim tc t players probs h
  rw [hrow] at hrow'
  have hrr : row' = row := (Option.some.inj hrow').symm
  subst hrr
  have hwl : ∀ kv ∈ listedPairs row', 0 ≤ kv.2 := hrnn.1
  have hwe : ∀ kv ∈ entries, 0 ≤ kv.2 := by
    rcases hshape with ⟨_, rfl⟩ | ⟨nd0, w, hnd, hw, rfl⟩
    · exact hwl
    · intro kv hkv
      rcases List.mem_append.mp hkv with h' | h'
      · exact hwl kv h'
      · have : kv = ("", w) := by simpa using h'
        rw [this]
        exact nodrop_weight_nonneg nd0 (sumWeights (listedPairs row')) players w
          (hrnn.2 nd0 hnd) (sumWeights_nonneg _ hwl) hw
  by_cases hemp : entries = []
  · subst hemp
    have hpe : probs = [] := by
      rw [hbuild]
      rfl
    subst hpe
    refine ⟨?_, ?_, ?_, ?_⟩
    · simp [DNodup, dkeys]
    · intro kv hkv
      cases hkv
    · simp [dsum]
    · intro hex
      exfalso
      rcases hshape with ⟨_, heq⟩ | ⟨nd0, w, _, _, heq⟩
      · exact hex.2.2 heq.symm
      · have : listedPairs row' ++ [("", w)] ≠ [] := by simp
        exact this heq.symm
  · have htotne : ((sumWeights entries : ℤ) : ℚ) ≠ 0 := fun hzero => hemp (htot hzero)
    have htotpos : (0 : ℚ) < ((sumWeights entries : ℤ) : ℚ) := by
      have h0 : (0 : ℚ) ≤ ((sumWeights entries : ℤ) : ℚ) := by
        exact_mod_cast sumWeights_nonneg entries hwe
      exact lt_of_le_of_ne h0 (Ne.symm htotne)
    refine ⟨?_, ?_, ?_, ?_⟩
    · rw [hbuild]
      exact buildProbDict_nodup _ _
    · rw [hbuild]
      exact buildProbDict_nonneg _ _ htotpos hwe
    · rw [hbuild]
      have := buildProbDict_sum_le entries _ htotpos hwe
      rwa [div_self (ne_of_gt htotpos)] at this
    · intro hex
      have hkeysne : ∀ k ∈ (listedPairs row').map Prod.fst, k ≠ "" := by
        intro k hk
        obtain ⟨kv, hkv, rfl⟩ := List.mem_map.mp hk
        exact listedPairs_key_ne row' kv hkv
      rcases hshape with ⟨hnd, rfl⟩ | ⟨nd0, w, hnd, hw, rfl⟩
      · rw [hbuild, buildProbDict_exact _ _ hex.1]
        rw [sumNE_map_div _ _ (fun kv hkv => listedPairs_key_ne row' kv hkv)]
        exact div_self (ne_of_gt htotpos)
      · have hnd0 : nd0 = 0 := by
          rcases hex.2.1 with h' | h'
          · rw [hnd] at h'
            exact Option.noConfusion h'
          · rw [hnd] at h'
            exact Option.some.inj h'
        subst hnd0
        have hzero : w = 0 := by
          obtain ⟨h1, _, _⟩ := nodrop_ok_elim 0 (sumWeights (listedPairs row')) players w hw
          have hsne : ((sumWeights (listedPairs row') : ℤ) : ℚ) ≠ 0 := by
            intro hc
            apply h1
            rw [hc]
            simp
          have := nodrop_weight_zero (sumWeights (listedPairs row')) players hsne
          rw [hw] at this
          exact Except.ok.inj this
        subst hzero
        have hnodup : ((listedPairs row' ++ [("", (0 : Int))]).map Prod.fst).Nodup := by
          rw [List.map_append]
          rw [List.nodup_append]
          refine ⟨hex.1, by simp, ?_⟩
          intro x hx hx'
          simp at hx'
          exact hkeysne x hx hx'
        rw [hbuild, buildProbDict_exact _ _ hnodup]
        rw [List.map_append]
        have hW : sumWeights (listedPairs row' ++ [("", (0 : Int))]) =
            sumWeights (listedPairs row') := by
          rw [sumWeights_append]
          simp [sumWeights]
        simp only [List.map_cons, List.map_nil]
        rw [sumNE_append_nodrop]
        rw [sumNE_map_div _ _ (fun kv hkv => listedPairs_key_ne row' kv hkv), hW]
        exact div_self (by rw [← hW]; exact ne_of_gt htotpos)

theorem leafLoopP_bounds (t : Table) (rec : String → Except PyErr Dict)
    (IH : ∀ o d, rec o = .ok d → DNodup d ∧ (NonnegFrom t o → DNonneg d ∧ dsum d ≤ 1) ∧
      (NonnegFrom t o → ExactFrom t o → o ≠ "" → dsum d = 1)) :
    ∀ (L : List (String × ℚ)) (dist : Dict) (d' : Dict),
      leafLoopP rec t L dist = .ok d' → DNodup dist →
      DNodup d' ∧
      ((DNonneg dist ∧ ∀ kv ∈ L, 0 ≤ kv.2 ∧ (kv.1 ≠ "" → NonnegFrom t kv.1)) →
        DNonneg d' ∧ dsum d' ≤ dsum dist + sumNE L) ∧
      ((DNonneg dist ∧ (∀ kv ∈ L, 0 ≤ kv.2 ∧ (kv.1 ≠ "" → NonnegFrom t kv.1)) ∧
          (∀ kv ∈ L, kv.1 ≠ "" → ExactFrom t kv.1)) →
        dsum d' = dsum dist + sumNE L) := by
  intro L
  induction L with
  | nil =>
    intro dist d' h hnd
    simp only [leafLoopP] at h
    have := Except.ok.inj h
    subst this
    exact ⟨hnd, fun hc => ⟨hc.1, by simp [sumNE_nil]⟩, fun _ => by simp [sumNE_nil]⟩
  | cons hd rest ih =>
    intro dist d' h hnd
    obtain ⟨o, pr⟩ := hd
    by_cases ho : o = ""
    · simp only [leafLoopP, if_pos ho] at h
      obtain ⟨hnd', hb, he⟩ := ih dist d' h hnd
      refine ⟨hnd', ?_, ?_⟩
      · intro ⟨hc1, hc2⟩
        obtain ⟨hn, hs⟩ := hb ⟨hc1, fun kv hkv => hc2 kv (List.mem_cons_of_mem _ hkv)⟩
        exact ⟨hn, by rw [sumNE_cons, if_pos ho]; linarith⟩
      · intro ⟨hc1, hc2, hc3⟩
        have := he ⟨hc1, fun kv hkv => hc2 kv (List.mem_cons_of_mem _ hkv),
          fun kv hkv => hc3 kv (List.mem_cons_of_mem _ hkv)⟩
        rw [sumNE_cons, if_pos ho]
        linarith
    · simp only [leafLoopP, if_neg ho] at h
      cases hrow : lookupRow t o with
      | none =>
        rw [hrow] at h
        dsimp only at h
        obtain ⟨hnd', hb, he⟩ := ih _ d' h (dnodup_dadd _ _ _ hnd)
        refine ⟨hnd', ?_, ?_⟩
        · intro ⟨hc1, hc2⟩
          have hpr : 0 ≤ pr := (hc2 (o, pr) (List.mem_cons_self _ _)).1
          obtain ⟨hn, hs⟩ := hb ⟨dnonneg_dadd _ _ _ hc1 hpr,
            fun kv hkv => hc2 kv (List.mem_cons_of_mem _ hkv)⟩
          refine ⟨hn, ?_⟩
          rw [sumNE_cons, if_neg ho]
          rw [dsum_dadd] at hs
          linarith
        · intro ⟨hc1, hc2, hc3⟩
          have hpr : 0 ≤ pr := (hc2 (o, pr) (List.mem_cons_self _ _)).1
          have := he ⟨dnonneg_dadd _ _ _ hc1 hpr,
            fun kv hkv => hc2 kv (List.mem_cons_of_mem _ hkv),
            fun kv hkv => hc3 kv (List.mem_cons_of_mem _ hkv)⟩
          rw [sumNE_cons, if_neg ho]
          rw [dsum_dadd] at this
          linarith
      | some row =>
        rw [hrow] at h
        dsimp only at h
        cases hrec : rec o with
        | error e =>
          rw [hrec] at h
          exact Except.noConfusion h
        | ok sub =>
          rw [hrec] at h
          dsimp only at h
          obtain ⟨hsubnd, hsubb, hsube⟩ := IH o sub hrec
          obtain ⟨hnd', hb, he⟩ := ih _ d' h (dnodup_accumScaled _ _ _ hnd)
          refine ⟨hnd', ?_, ?_⟩
          · intro ⟨hc1, hc2⟩
            have hpr : 0 ≤ pr := (hc2 (o, pr) (List.mem_cons_self _ _)).1
            have hofrom : NonnegFrom t o := (hc2 (o, pr) (List.mem_cons_self _ _)).2 ho
            obtain ⟨hsn, hss⟩ := hsubb hofrom
            obtain ⟨hn, hs⟩ := hb ⟨dnonneg_accumScaled pr hpr sub _ hc1 hsn,
              fun kv hkv => hc2 kv (List.mem_cons_of_mem _ hkv)⟩
            refine ⟨hn, ?_⟩
            rw [sumNE_cons, if_neg ho]
            rw [dsum_accumScaled] at hs
            have hmul : pr * dsum sub ≤ pr := by
              have := mul_le_mul_of_nonneg_left hss hpr
              simpa using this
            linarith
          · intro ⟨hc1, hc2, hc3⟩
            have hpr : 0 ≤ pr := (hc2 (o, pr) (List.mem_cons_self _ _)).1
            have hofrom : NonnegFrom t o := (hc2 (o, pr) (List.mem_cons_self _ _)).2 ho
            have hoex : ExactFrom t o := hc3 (o, pr) (List.mem_cons_self _ _) ho
            obtain ⟨hsn, _⟩ := hsubb hofrom
            have hsum1 : dsum sub = 1 := hsube hofrom hoex ho
            have := he ⟨dnonneg_accumScaled pr hpr sub _ hc1 hsn,
              fun kv hkv => hc2 kv (List.mem_cons_of_mem _ hkv),
              fun kv hkv => hc3 kv (List.mem_cons_of_mem _ hkv)⟩
            rw [sumNE_cons, if_neg ho]
            rw [dsum_accumScaled, hsum1] at this
            linarith

theorem leafPure_bounds (t : Table) (players : Int) :
    ∀ (fuel : ℕ) (tc : String) (d : Dict), leafPure fuel tc t players = .ok d →
      DNodup d ∧ (NonnegFrom t tc → DNonneg d ∧ dsum d ≤ 1) ∧
      (NonnegFrom t tc → ExactFrom t tc → tc ≠ "" → dsum d = 1) := by
  intro fuel
  induction fuel with
  | zero =>
    intro tc d h
    exact Except.noConfusion h
  | succ fuel ih =>
    intro tc d h
    simp only [leafPure] at h
    by_cases htc : tc = ""
    · rw [if_pos htc] at h
      have := Except.ok.inj h
      subst this
      refine ⟨by simp [DNodup, dkeys], fun _ => ⟨fun kv hkv => absurd hkv (by simp), by simp [dsum]⟩,
        fun _ _ htc' => absurd htc htc'⟩
    · rw [if_neg htc] at h
      cases hrow : lookupRow t tc with
      | none =>
        rw [hrow] at h
        dsimp only at h
        have := Except.ok.inj h
        subst this
        refine ⟨by simp [DNodup, dkeys], fun _ => ⟨?_, by simp [dsum]⟩, fun _ _ _ => by simp [dsum]⟩
        intro kv hkv
        have : kv = (tc, (1 : ℚ)) := by simpa using hkv
        rw [this]
        norm_num
      | some row =>
        rw [hrow] at h
        dsimp only at h
        cases hop : outcome_probs tc t players with
        | error e =>
          rw [hop] at h
          exact Except.noConfusion h
        | ok probs =>
          rw [hop] at h
          dsimp only at h
          obtain ⟨hnd', hb, he⟩ :=
            leafLoopP_bounds t (fun o => leafPure fuel o t players) ih probs [] d h
              (by simp [DNodup, dkeys])
          refine ⟨hnd', ?_, ?_⟩
          · intro hnn
            have hrnn : RowNonneg row := hnn tc row Relation.ReflTransGen.refl hrow
            obtain ⟨hpnd, hpnn, hpsum, _⟩ := probs_props t tc players probs row hop hrow hrnn
            have hcond : ∀ kv ∈ probs, 0 ≤ kv.2 ∧ (kv.1 ≠ "" → NonnegFrom t kv.1) := by
              intro kv hkv
              refine ⟨hpnn kv hkv, fun hne => ?_⟩
              exact NonnegFrom_step t tc kv.1 hnn (edge_of_probs t tc players probs hop kv hkv hne)
            obtain ⟨hn, hs⟩ := hb ⟨fun kv hkv => absurd hkv (by simp), hcond⟩
            refine ⟨hn, ?_⟩
            have h1 : sumNE probs ≤ dsum probs := sumNE_le_dsum probs (fun kv hkv => hpnn kv hkv)
            have h2 : dsum ([] : Dict) = 0 := by simp [dsum]
            rw [h2] at hs
            linarith
          · intro hnn hex _
            have hrnn : RowNonneg row := hnn tc row Relation.ReflTransGen.refl hrow
            have hrex : RowExact row := hex tc row Relation.ReflTransGen.refl hrow
            obtain ⟨hpnd, hpnn, hpsum, hock⟩ := probs_props t tc players probs row hop hrow hrnn
            have hcond : ∀ kv ∈ probs, 0 ≤ kv.2 ∧ (kv.1 ≠ "" → NonnegFrom t kv.1) := by
              intro kv hkv
              refine ⟨hpnn kv hkv, fun hne => ?_⟩
              exact NonnegFrom_step t tc kv.1 hnn (edge_of_probs t tc players probs hop kv hkv hne)
            have hconde : ∀ kv ∈ probs, kv.1 ≠ "" → ExactFrom t kv.1 := by
              intro kv hkv hne
              exact ExactFrom_step t tc kv.1 hex (edge_of_probs t tc players probs hop kv hkv hne)
            have := he ⟨fun kv hkv => absurd hkv (by simp), hcond, hconde⟩
            have h2 : dsum ([] : Dict) = 0 := by simp [dsum]
            rw [h2, hock hrex] at this
            linarith

/-! ### Soundness of the negative-picks loop -/

theorem list_map_congr {α β : Type _} (l : List α) (f g : α → β)
    (h : ∀ a ∈ l, f a = g a) : l.map f = l.map g := by
  induction l with
  | nil => rfl
  | cons a rest ih =>
    simp only [List.map_cons]
    rw [h a (List.mem_cons_self _ _), ih (fun x hx => h x (List.mem_cons_of_mem _ hx))]

theorem negLoop_sound (t : Table) (players : Int) (fuel : ℕ) :
    ∀ (seq : List String) (out : Dict) (memo : Memo) (out' : Dict) (m' : Memo),
      Coherent t memo →
      negLoop fuel t players seq out memo = .ok (out', m') →
      ∃ f : String → Dict,
        (∀ tc ∈ seq, Conv t players tc (f tc) ∧ DNodup (f tc)) ∧
        (∀ key, dval out' key =
          dval out key + (seq.map (fun tc => (innerP t tc : ℚ) * dval (f tc) key)).sum) ∧
        Coherent t m' := by
  intro seq
  induction seq with
  | nil =>
    intro out memo out' m' hmemo h
    simp only [negLoop] at h
    have hinj := Except.ok.inj h
    rw [Prod.mk.injEq] at hinj
    obtain ⟨rfl, rfl⟩ := hinj
    exact ⟨fun _ => [], fun tc htc => absurd htc (by simp), fun key => by simp, hmemo⟩
  | cons tc rest ih =>
    intro out memo out' m' hmemo h
    simp only [negLoop] at h
    cases hld : leaf_dist fuel tc t players memo with
    | error e =>
      rw [hld] at h
      exact Except.noConfusion h
    | ok dm =>
      obtain ⟨sub, m₁⟩ := dm
      rw [hld] at h
      dsimp only at h
      obtain ⟨hconv, hcoh₁⟩ := leaf_dist_sound t players fuel tc memo sub m₁ hmemo hld
      have hsubnd : DNodup sub := by
        obtain ⟨F, hF⟩ := hconv
        exact (leafPure_bounds t players F tc sub (hF F le_rfl)).1
      obtain ⟨f₀, hf₀conv, hf₀val, hcoh'⟩ := ih _ m₁ out' m' hcoh₁ h
      refine ⟨fun s => if s = tc then sub else f₀ s, ?_, ?_, hcoh'⟩
      · intro s hs
        dsimp only
        by_cases hstc : s = tc
        · subst hstc
          rw [if_pos rfl]
          exact ⟨hconv, hsubnd⟩
        · rw [if_neg hstc]
          refine hf₀conv s ?_
          rcases List.mem_cons.mp hs with h' | h'
          · exact absurd h' hstc
          · exact h'
      · intro key
        rw [List.map_cons, List.sum_cons]
        dsimp only
        have hstep := hf₀val key
        rw [dval_accumScaled _ sub _ hsubnd key] at hstep
        rw [hstep]
        rw [if_pos rfl]
        have hmapeq : rest.map (fun s => (innerP t s : ℚ) * dval (if s = tc then sub else f₀ s) key)
            = rest.map (fun s => (innerP t s : ℚ) * dval (f₀ s) key) := by
          apply list_map_congr
          intro s hsmem
          by_cases hstc : s = tc
          · subst hstc
            rw [if_pos rfl]
            have h1 := hf₀conv s hsmem
            rw [Conv_unique t players s (f₀ s) sub h1.1 hconv]
          · rw [if_neg hstc]
        rw [hmapeq]
        ring

/-! ### Scaling lemmas for the positive-picks branch -/

theorem dget_map_scale (d : Dict) (c : ℚ) (q : String) :
    dget (d.map (fun kv => (kv.1, kv.2 * c))) q = (dget d q).map (fun v => v * c) := by
  induction d with
  | nil => rfl
  | cons hd tl ih =>
    obtain ⟨a, b⟩ := hd
    by_cases haq : a = q <;> simp [dget, haq, ih]

theorem dval_map_scale (d : Dict) (c : ℚ) (q : String) :
    dval (d.map (fun kv => (kv.1, kv.2 * c))) q = dval d q * c := by
  unfold dval
  rw [dget_map_scale]
  cases dget d q <;> simp

theorem effectivePicks_of_neg (row : TCRow) (h : getPicks row < 0) :
    effectivePicks row = getPicks row := by
  unfold effectivePicks
  rw [if_neg]
  intro hc
  omega

theorem effectivePicks_of_not_gold (row : TCRow)
    (h : pyStartsWith (row.itemCols.headD "") "gld" = false) :
    effectivePicks row = getPicks row := by
  unfold effectivePicks
  rw [if_neg]
  intro hc
  rw [h] at hc
  exact Bool.noConfusion hc.2


theorem tblA_row_unique (n : String) (row : TCRow) (hl : lookupRow tblA n = some row) :
    row = rowA := by
  simp only [tblA, lookupRow] at hl
  by_cases hn : "A" = n
  · rw [if_pos hn] at hl
    exact (Option.some.inj hl).symm
  · rw [if_neg hn] at hl
    exact Option.noConfusion hl

/-! ### Claim C3 -/

/-- Claim C3: for a declared Picks value k, the effective pick count used by
per-kill aggregation is max(0, k-1) when k is positive and the row's first
Item column begins with the gold marker, and the declared value k unchanged
when the first Item column does not begin with the gold marker or when
k is not positive. -/
theorem c3_gold_pick_adjustment (row : TCRow) (k : Int) (hk : getPicks row = k) :
    (0 < k → pyStartsWith (row.itemCols.headD "") "gld" = true →
      effectivePicks row = max 0 (k - 1)) ∧
    (pyStartsWith (row.itemCols.headD "") "gld" = false → effectivePicks row = k) ∧
    (k ≤ 0 → effectivePicks row = k) := by
  subst hk
  refine ⟨?_, ?_, ?_⟩
  · intro hpos hgold
    simp only [effectivePicks]
    rw [if_pos ⟨hpos, hgold⟩]
  · intro hgold
    exact effectivePicks_of_not_gold row hgold
  · intro hle
    simp only [effectivePicks]
    rw [if_neg]
    intro hc
    have := hc.1
    omega

/-- Witness for C3 at a concrete act-boss style row. -/
theorem c3_witness :
    getPicks rowC3 = 7 ∧ (0 : Int) < 7 ∧
    pyStartsWith (rowC3.itemCols.headD "") "gld" = true ∧
    effectivePicks rowC3 = max 0 (7 - 1) :=
  ⟨rfl, by norm_num, by decide,
    (c3_gold_pick_adjustment rowC3 7 rfl).1 (by norm_num) (by decide)⟩

/-! ### Claim C4 -/

/-- Claim C4 fails as stated: at raw weight 1, listed sum 3 and player
count 2, the code (which truncates the exponent players/2 + 0.5 to 1)
returns 1 while the spec's formula (which rounds the exponent to the
nearest integer, 2) yields 0. -/
theorem c4_counterexample :
    nodrop_adjusted_weight 1 3 2 = .ok 1 ∧ nodropWeightSpecRound 1 3 2 = 0 ∧
    (1 : Int) ≠ 0 := by
  have hp1 : pyround (1 : ℚ) = 1 := pyround_eval_low 1 1 (by norm_num) (by norm_num)
  refine ⟨?_, ?_, by norm_num⟩
  · norm_num [nodrop_adjusted_weight, Int.toNat_ofNat, Int.toNat_one, hp1]
  · norm_num [nodropWeightSpecRound, round_eq, Int.fract, show Int.toNat 2 = 2 from rfl]

/-- Claim C4 as amended: the adjusted no-drop weight equals
round((ratio / (1 - ratio)) * s) with ratio = (raw / (raw + s)) ** e, where
the exponent e is p/2 + 0.5 truncated toward zero (the floor (p+1)/2 of the
clamped player count), not rounded to nearest. -/
theorem c4_truncated_exponent (nd s p : Int)
    (h1 : (nd : ℚ) + (s : ℚ) ≠ 0)
    (h2 : ((nd : ℚ) / ((nd : ℚ) + (s : ℚ))) ^ (((max 1 (min 8 p)).toNat + 1) / 2) ≠ 1) :
    nodrop_adjusted_weight nd s p =
      .ok (pyround (((nd : ℚ) / ((nd : ℚ) + (s : ℚ))) ^ (((max 1 (min 8 p)).toNat + 1) / 2) /
        (1 - ((nd : ℚ) / ((nd : ℚ) + (s : ℚ))) ^ (((max 1 (min 8 p)).toNat + 1) / 2)) *
        (s : ℚ))) := by
  have hr : ratioOf nd s p =
      ((nd : ℚ) / ((nd : ℚ) + (s : ℚ))) ^ (((max 1 (min 8 p)).toNat + 1) / 2) := by
    unfold ratioOf baseOf
    rw [ndExpOf_eq_truncation p]
  rw [nodrop_eq_clean, if_neg h1, hr, if_neg h2]

/-- Witness for the amended C4 at raw 1, sum 3, players 2. -/
theorem c4_witness :
    (((1 : Int) : ℚ) + ((3 : Int) : ℚ) ≠ 0) ∧
    ((((1 : Int) : ℚ) / (((1 : Int) : ℚ) + ((3 : Int) : ℚ))) ^
        (((max 1 (min 8 (2 : Int))).toNat + 1) / 2) ≠ 1) ∧
    nodrop_adjusted_weight 1 3 2 =
      .ok (pyround ((((1 : Int) : ℚ) / (((1 : Int) : ℚ) + ((3 : Int) : ℚ))) ^
          (((max 1 (min 8 (2 : Int))).toNat + 1) / 2) /
        (1 - (((1 : Int) : ℚ) / (((1 : Int) : ℚ) + ((3 : Int) : ℚ))) ^
          (((max 1 (min 8 (2 : Int))).toNat + 1) / 2)) * ((3 : Int) : ℚ))) := by
  have h1 : ((1 : Int) : ℚ) + ((3 : Int) : ℚ) ≠ 0 := by norm_num
  have h2 : (((1 : Int) : ℚ) / (((1 : Int) : ℚ) + ((3 : Int) : ℚ))) ^
      (((max 1 (min 8 (2 : Int))).toNat + 1) / 2) ≠ 1 := by
    norm_num [show Int.toNat 2 = 2 from rfl]
  exact ⟨h1, h2, c4_truncated_exponent 1 3 2 h1 h2⟩

/-! ### Claim C7 -/

/-- Claim C7 fails as stated: with raw weight 1 and listed sum 1 fixed,
raising the player count from 1 to 3 drops the adjusted no-drop weight from
1 to 0, so the weight is not nondecreasing in the player count. -/
theorem c7_counterexample :
    nodrop_adjusted_weight 1 1 1 = .ok 1 ∧ nodrop_adjusted_weight 1 1 3 = .ok 0 ∧
    ¬ ((1 : Int) ≤ 0) := by
  have hp1 : pyround (1 : ℚ) = 1 := pyround_eval_low 1 1 (by norm_num) (by norm_num)
  have hp0 : pyround ((1 : ℚ)/3) = 0 := pyround_eval_low ((1 : ℚ)/3) 0 (by norm_num) (by norm_num)
  refine ⟨?_, ?_, by norm_num⟩
  · norm_num [nodrop_adjusted_weight, Int.toNat_ofNat, Int.toNat_one, hp1]
  · norm_num [nodrop_adjusted_weight, Int.toNat_one, show Int.toNat 2 = 2 from rfl, hp0]

/-- Claim C7 as amended: for a fixed nonnegative raw no-drop weight and a
fixed positive listed-weight sum, increasing the player count never
increases the adjusted no-drop weight (the adjustment is antitone in the
player count). -/
theorem c7_antitone_in_players (nd s p q : Int) (hnd : 0 ≤ nd) (hs : 0 < s) (hpq : p ≤ q) :
    ∃ w w', nodrop_adjusted_weight nd s p = .ok w ∧ nodrop_adjusted_weight nd s q = .ok w' ∧
      w' ≤ w := by
  have h1q : (0 : ℚ) ≤ (nd : ℚ) := by exact_mod_cast hnd
  have h2q : (0 : ℚ) < (s : ℚ) := by exact_mod_cast hs
  have hden : (nd : ℚ) + (s : ℚ) ≠ 0 := ne_of_gt (by linarith)
  have hrp : ratioOf nd s p < 1 := ratioOf_lt_one nd s p hnd hs
  have hrq : ratioOf nd s q < 1 := ratioOf_lt_one nd s q hnd hs
  have hrpn := ratioOf_nonneg nd s p hnd hs.le
  have hrqn := ratioOf_nonneg nd s q hnd hs.le
  have hle : ratioOf nd s q ≤ ratioOf nd s p := by
    unfold ratioOf
    exact pow_le_pow_of_le_one (baseOf_nonneg nd s hnd hs.le)
      (baseOf_le_one nd s hnd hs.le hden) (ndExpOf_mono hpq)
  refine ⟨pyround (ratioOf nd s p / (1 - ratioOf nd s p) * (s : ℚ)),
    pyround (ratioOf nd s q / (1 - ratioOf nd s q) * (s : ℚ)), ?_, ?_, ?_⟩
  · rw [nodrop_eq_clean, if_neg hden, if_neg (ne_of_lt hrp)]
  · rw [nodrop_eq_clean, if_neg hden, if_neg (ne_of_lt hrq)]
  · apply pyround_mono
    apply mul_le_mul_of_nonneg_right _ h2q.le
    rw [div_le_div_iff₀ (by linarith) (by linarith)]
    nlinarith [hle, hrpn, hrqn]

/-- Witness for the amended C7 at raw 1, sum 1, players 1 and 3. -/
theorem c7_witness :
    ((0 : Int) ≤ 1) ∧ ((0 : Int) < 1) ∧ ((1 : Int) ≤ 3) ∧
    (∃ w w', nodrop_adjusted_weight 1 1 1 = .ok w ∧ nodrop_adjusted_weight 1 1 3 = .ok w' ∧
      w' ≤ w) :=
  ⟨by norm_num, by norm_num, by norm_num, c7_antitone_in_players 1 1 1 3 (by norm_num)
    (by norm_num) (by norm_num)⟩

/-! ### Claim C8 -/

/-- Claim C8 fails as stated for referenced nodes: resolving the unknown
referenced identifier "ghost" raises no error; the per-kill computation
succeeds and silently substitutes the point distribution on "ghost". -/
theorem c8_counterexample :
    lookupRow tblGhost "ghost" = none ∧
    expected_counts_per_kill 2 "R8" tblGhost 1 = .ok [("ghost", 1)] := by
  refine ⟨rfl, ?_⟩
  norm_num +decide [expected_counts_per_kill, tblGhost, rowGhost, lookupRow, effectivePicks,
    getPicks, pyStartsWith, expected_counts_for_one_pick, outcome_probs, listedPairs,
    sumWeights, buildProbDict, dset, onePickLoop, leaf_dist, leafLoop, dadd, dval, dget,
    accumScaled, memoLookup, memoInsert]

/-- Claim C8 as amended: an unknown root identifier is a fatal lookup
failure (a KeyError naming the root, with no substituted distribution),
while an unknown referenced (non-root) identifier is not an error: the
Leaf Resolver treats it as a terminal leaf with probability 1. -/
theorem c8_unknown_lookup (fuel : ℕ) (t : Table) (players : Int) (root ref : String)
    (memo : Memo) (hroot : lookupRow t root = none) (href : lookupRow t ref = none)
    (hne : ref ≠ "") :
    expected_counts_per_kill fuel root t players = .error (.keyError root) ∧
    errNames (PyErr.keyError root) = some root ∧
    leaf_dist (fuel + 1) ref t players memo = .ok ([(ref, 1)], memo) := by
  refine ⟨?_, rfl, ?_⟩
  · unfold expected_counts_per_kill
    rw [hroot]
  · simp only [leaf_dist, if_neg hne]
    rw [href]

/-- Witness for the amended C8 on a concrete table. -/
theorem c8_witness :
    lookupRow tblGhost "nope" = none ∧ lookupRow tblGhost "ghost" = none ∧
    ("ghost" ≠ "") ∧
    (expected_counts_per_kill 1 "nope" tblGhost 1 = .error (.keyError "nope") ∧
      errNames (PyErr.keyError "nope") = some "nope" ∧
      leaf_dist (1 + 1) "ghost" tblGhost 1 [] = .ok ([("ghost", 1)], [])) :=
  ⟨rfl, rfl, by decide, c8_unknown_lookup 1 tblGhost 1 "nope" "ghost" [] rfl rfl (by decide)⟩

/-! ### Claim C9 -/

/-- Claim C9 fails as stated: when the adjustment ratio reaches 1 the
computation does fail fatally with an unhandled ZeroDivisionError, but the
error carries no node identifier at all, so it is not reported with the
offending node identifier. -/
theorem c9_counterexample :
    leaf_dist 2 "T9" tblZ 1 [] = .error .zeroDivisionError ∧
    errNames PyErr.zeroDivisionError = none ∧
    errNames PyErr.zeroDivisionError ≠ some "T9" := by
  refine ⟨?_, rfl, by decide⟩
  norm_num +decide [leaf_dist, tblZ, rowZ, lookupRow, outcome_probs, listedPairs, sumWeights,
    nodrop_adjusted_weight, memoLookup, Int.fract, Int.toNat_ofNat, pyround, leafLoop,
    buildProbDict, dset]

/-- Claim C9 as amended: whenever the adjustment ratio reaches exactly 1,
the no-drop adjustment fails with an unhandled ZeroDivisionError that
propagates out of the Outcome Distribution Resolver (no value is silently
substituted), but the error does not name the offending node identifier. -/
theorem c9_ratio_one_fatal (t : Table) (tc : String) (players : Int) (row : TCRow)
    (nd0 : Int) (hrow : lookupRow t tc = some row) (hnd : row.noDrop = some nd0)
    (hbase : (nd0 : ℚ) + ((sumWeights (listedPairs row) : Int) : ℚ) ≠ 0)
    (hratio : ratioOf nd0 (sumWeights (listedPairs row)) players = 1) :
    nodrop_adjusted_weight nd0 (sumWeights (listedPairs row)) players =
      .error .zeroDivisionError ∧
    outcome_probs tc t players = .error .zeroDivisionError ∧
    errNames PyErr.zeroDivisionError = none := by
  have herr : nodrop_adjusted_weight nd0 (sumWeights (listedPairs row)) players =
      .error .zeroDivisionError := by
    rw [nodrop_eq_clean, if_neg hbase, if_pos hratio]
  refine ⟨herr, ?_, rfl⟩
  unfold outcome_probs
  rw [hrow]
  dsimp only
  rw [hnd]
  dsimp only
  rw [herr]

/-- Witness for the amended C9 on a concrete table. -/
theorem c9_witness :
    lookupRow tblZ "T9" = some rowZ ∧ rowZ.noDrop = some 5 ∧
    (((5 : Int) : ℚ) + ((sumWeights (listedPairs rowZ) : Int) : ℚ) ≠ 0) ∧
    ratioOf 5 (sumWeights (listedPairs rowZ)) 1 = 1 ∧
    (nodrop_adjusted_weight 5 (sumWeights (listedPairs rowZ)) 1 =
        .error .zeroDivisionError ∧
      outcome_probs "T9" tblZ 1 = .error .zeroDivisionError ∧
      errNames PyErr.zeroDivisionError = none) := by
  have hb : ((5 : Int) : ℚ) + ((sumWeights (listedPairs rowZ) : Int) : ℚ) ≠ 0 := by
    norm_num +decide [listedPairs, rowZ, sumWeights]
  have hr : ratioOf 5 (sumWeights (listedPairs rowZ)) 1 = 1 := by
    norm_num +decide [ratioOf, baseOf, ndExpOf, listedPairs, rowZ, sumWeights,
      Int.toNat_ofNat, Int.toNat_one]
  exact ⟨rfl, rfl, hb, hr, c9_ratio_one_fatal tblZ "T9" 1 rowZ 5 rfl rfl hb hr⟩

/-! ### Claim C1 -/

/-- Claim C1: for a root whose Picks value k is positive and whose first
Item column does not begin with the gold marker, the per-kill expected
count vector is exactly k times the one-outer-pick vector, element-wise
(the same keys, each value scaled by k). -/
theorem c1_positive_picks_scale (fuel : ℕ) (t : Table) (players : Int) (root : String)
    (row : TCRow) (k : Int) (d : Dict) (m : Memo)
    (hroot : lookupRow t root = some row)
    (hk : getPicks row = k) (hkpos : 0 < k)
    (hgold : pyStartsWith (row.itemCols.headD "") "gld" = false)
    (hone : expected_counts_for_one_pick fuel root t players [] = .ok (d, m)) :
    expected_counts_per_kill fuel root t players =
      .ok (d.map (fun kv => (kv.1, kv.2 * (k : ℚ)))) ∧
    ∀ s, dval (d.map (fun kv => (kv.1, kv.2 * (k : ℚ)))) s = dval d s * (k : ℚ) := by
  have hep : effectivePicks row = k := by
    rw [effectivePicks_of_not_gold row hgold, hk]
  constructor
  · unfold expected_counts_per_kill
    rw [hroot]
    dsimp only
    rw [hep, if_neg (by omega : ¬ k < 0), hone]
  · intro s
    exact dval_map_scale d (k : ℚ) s

/-- Witness for C1 at a concrete one-row table with Picks 2. -/
theorem c1_witness :
    lookupRow tblC1 "R" = some rowC1 ∧ getPicks rowC1 = 2 ∧ ((0 : Int) < 2) ∧
    pyStartsWith (rowC1.itemCols.headD "") "gld" = false ∧
    expected_counts_for_one_pick 2 "R" tblC1 1 [] = .ok ([("a", 1)], []) ∧
    (expected_counts_per_kill 2 "R" tblC1 1 =
        .ok ([("a", (1 : ℚ))].map (fun kv => (kv.1, kv.2 * ((2 : Int) : ℚ)))) ∧
      dval ([("a", (1 : ℚ))].map (fun kv => (kv.1, kv.2 * ((2 : Int) : ℚ)))) "a" =
        dval [("a", (1 : ℚ))] "a" * ((2 : Int) : ℚ)) := by
  have hone : expected_counts_for_one_pick 2 "R" tblC1 1 [] = .ok ([("a", 1)], []) := by
    norm_num +decide [expected_counts_for_one_pick, tblC1, rowC1, lookupRow, outcome_probs,
      listedPairs, sumWeights, buildProbDict, dset, onePickLoop, dadd, dval, dget, getPicks]
  have hmain := c1_positive_picks_scale 2 tblC1 1 "R" rowC1 2 [("a", 1)] [] rfl rfl
    (by norm_num) (by decide) hone
  exact ⟨rfl, rfl, by norm_num, by decide, hone, hmain.1, hmain.2 "a"⟩

/-! ### Claim C2 -/

/-- Claim C2: for a root with negative Picks, per-kill aggregation consumes
the deterministic sequence obtained by repeating each listed outcome its
weight's many times in listed order, truncated to min(|picks|, sequence
length) entries (a shorter sequence is not an error), and each consumed
entry contributes its own Picks value (default 1) times its pure Leaf
Distribution to the accumulated expected counts. -/
theorem c2_negative_picks (fuel : ℕ) (t : Table) (players : Int) (root : String)
    (row : TCRow) (out : Dict)
    (hroot : lookupRow t root = some row)
    (hneg : getPicks row < 0)
    (hok : expected_counts_per_kill fuel root t players = .ok out) :
    ((rollSeq (listedPairs row)).take (getPicks row).natAbs).length
        = min (getPicks row).natAbs (rollSeq (listedPairs row)).length ∧
    ∃ f : String → Dict,
      (∀ tc ∈ (rollSeq (listedPairs row)).take (getPicks row).natAbs,
        Conv t players tc (f tc)) ∧
      ∀ key, dval out key =
        (((rollSeq (listedPairs row)).take (getPicks row).natAbs).map
          (fun tc => (innerP t tc : ℚ) * dval (f tc) key)).sum := by
  constructor
  · exact List.length_take _ _
  · unfold expected_counts_per_kill at hok
    rw [hroot] at hok
    dsimp only at hok
    rw [effectivePicks_of_neg row hneg, if_pos hneg] at hok
    cases hnl : negLoop fuel t players
        ((rollSeq (listedPairs row)).take (getPicks row).natAbs) [] [] with
    | error e =>
      rw [hnl] at hok
      exact Except.noConfusion hok
    | ok dm =>
      obtain ⟨o, m⟩ := dm
      rw [hnl] at hok
      dsimp only at hok
      have ho : o = out := Except.ok.inj hok
      subst ho
      obtain ⟨f, hconv, hval, _⟩ :=
        negLoop_sound t players fuel _ [] [] o m (coherent_nil t) hnl
      refine ⟨f, fun tc htc => (hconv tc htc).1, fun key => ?_⟩
      have h := hval key
      have h0 : dval [] key = 0 := by simp [dval, dget]
      rw [h0] at h
      linarith [h]

/-- Witness for C2 at a concrete one-row table with Picks -3. -/
theorem c2_witness :
    lookupRow tblC2 "R" = some rowC2 ∧ getPicks rowC2 < 0 ∧
    expected_counts_per_kill 2 "R" tblC2 1 = .ok [("X", 2), ("Y", 1)] ∧
    (((rollSeq (listedPairs rowC2)).take (getPicks rowC2).natAbs).length
        = min (getPicks rowC2).natAbs (rollSeq (listedPairs rowC2)).length ∧
      ∃ f : String → Dict,
        (∀ tc ∈ (rollSeq (listedPairs rowC2)).take (getPicks rowC2).natAbs,
          Conv tblC2 1 tc (f tc)) ∧
        ∀ key, dval [("X", (2 : ℚ)), ("Y", 1)] key =
          (((rollSeq (listedPairs rowC2)).take (getPicks rowC2).natAbs).map
            (fun tc => (innerP tblC2 tc : ℚ) * dval (f tc) key)).sum) := by
  have h2 : getPicks rowC2 < 0 := by decide
  have h3 : expected_counts_per_kill 2 "R" tblC2 1 = .ok [("X", 2), ("Y", 1)] := by
    norm_num +decide [expected_counts_per_kill, tblC2, rowC2, lookupRow, effectivePicks,
      getPicks, pyStartsWith, rollSeq, listedPairs, negLoop, innerP, leaf_dist, leafLoop,
      outcome_probs, sumWeights, buildProbDict, dset, dadd, dval, dget, accumScaled,
      memoLookup, memoInsert]
  exact ⟨rfl, h2, h3, c2_negative_picks 2 tblC2 1 "R" rowC2 [("X", 2), ("Y", 1)] rfl h2 h3⟩

/-! ### Claim C5 -/

/-- Claim C5 fails as stated, twice over.  A row listing the same outcome
name "a" twice with weights 1 and 1 produces the distribution that assigns
"a" only the probability 1/2 of its last listing (the dict comprehension
overrides the earlier entry), so the output probabilities sum to 1/2.  And
a row listing no outcomes at all with no raw no-drop weight succeeds with
the empty distribution (the dict comprehension runs zero iterations, so the
zero total is never divided by), whose probabilities sum to 0.  Both sums
are off from 1 by far more than the 1e-9 tolerance. -/
theorem c5_counterexample :
    (outcome_probs "D" tblDup 1 = .ok [("a", (1 : ℚ)/2)] ∧
      ¬ (|dsum [("a", (1 : ℚ)/2)] - 1| ≤ 1/1000000000)) ∧
    (outcome_probs "E" tblEmpty 1 = .ok [] ∧
      ¬ (|dsum ([] : Dict) - 1| ≤ 1/1000000000)) := by
  refine ⟨⟨?_, ?_⟩, ?_, ?_⟩
  · norm_num +decide [outcome_probs, tblDup, rowDup, lookupRow, listedPairs, sumWeights,
      buildProbDict, dset]
  · rw [show dsum [("a", (1 : ℚ)/2)] = 1/2 by simp [dsum]]
    rw [show |(1 : ℚ)/2 - 1| = 1/2 by rw [abs_of_neg (by norm_num)]; norm_num]
    norm_num
  · norm_num +decide [outcome_probs, tblEmpty, rowEmpty, lookupRow, listedPairs, sumWeights,
      buildProbDict, dset]
  · rw [show dsum ([] : Dict) = 0 by simp [dsum]]
    rw [show |(0 : ℚ) - 1| = 1 by rw [abs_of_neg (by norm_num)]; norm_num]
    norm_num

/-- Claim C5 as amended: for a row that lists at least one outcome and
whose listed outcome names are pairwise distinct, the Outcome Distribution
Resolver's output probabilities sum to exactly 1 whenever it succeeds (a
row listing nothing succeeds with the empty distribution, summing to 0,
and a repeated outcome name collapses, summing below 1). -/
theorem c5_distinct_sum_one (tc : String) (t : Table) (players : Int) (row : TCRow)
    (d : Dict) (hrow : lookupRow t tc = some row)
    (hnodup : ((listedPairs row).map Prod.fst).Nodup)
    (hlist : listedPairs row ≠ [])
    (hok : outcome_probs tc t players = .ok d) : dsum d = 1 := by
  obtain ⟨row', entries, hrow', hshape, htot, hbuild⟩ := outcome_probs_ok_elim tc t players d hok
  rw [hrow] at hrow'
  have hrr : row' = row := (Option.some.inj hrow').symm
  subst hrr
  have hkeysne : ∀ k ∈ (listedPairs row').map Prod.fst, k ≠ "" := by
    intro k hk
    obtain ⟨kv, hkv, rfl⟩ := List.mem_map.mp hk
    exact listedPairs_key_ne row' kv hkv
  rcases hshape with ⟨_, rfl⟩ | ⟨nd0, w, hnd, hw, rfl⟩
  · have htotne : ((sumWeights (listedPairs row') : ℤ) : ℚ) ≠ 0 :=
      fun hzero => hlist (htot hzero)
    rw [hbuild, buildProbDict_exact _ _ hnodup, dsum_map_div]
    exact div_self htotne
  · have hne2 : listedPairs row' ++ [("", w)] ≠ [] := by simp
    have htotne : ((sumWeights (listedPairs row' ++ [("", w)]) : ℤ) : ℚ) ≠ 0 :=
      fun hzero => hne2 (htot hzero)
    have hnodup2 : ((listedPairs row' ++ [("", w)]).map Prod.fst).Nodup := by
      rw [List.map_append, List.nodup_append]
      refine ⟨hnodup, by simp, ?_⟩
      intro x hx hx'
      simp at hx'
      exact hkeysne x hx hx'
    rw [hbuild, buildProbDict_exact _ _ hnodup2, dsum_map_div]
    exact div_self htotne

/-- Witness for the amended C5 on a concrete one-row table. -/
theorem c5_witness :
    lookupRow tblA "A" = some rowA ∧ ((listedPairs rowA).map Prod.fst).Nodup ∧
    listedPairs rowA ≠ [] ∧
    outcome_probs "A" tblA 1 = .ok [("x", 1)] ∧ dsum [("x", (1 : ℚ))] = 1 := by
  have h3 : outcome_probs "A" tblA 1 = .ok [("x", 1)] := by
    norm_num +decide [outcome_probs, tblA, rowA, lookupRow, listedPairs, sumWeights,
      buildProbDict, dset]
  exact ⟨rfl, by decide, by decide, h3,
    c5_distinct_sum_one "A" tblA 1 rowA [("x", 1)] rfl (by decide) (by decide) h3⟩

/-! ### Claim C6 -/

/-- Claim C6 fails as stated in both parts.  With a negative listed weight
(-1 on a terminal, 2 on a lossy child) the leaf masses sum to -13/15,
outside [0, 1].  With a duplicated outcome name the leaf masses sum to
1/2 although no reachable node carries any raw no-drop weight at all.
And a reachable row listing no outcomes at all (and no raw no-drop weight)
makes the resolver succeed with the empty distribution, so the masses sum
to 0, again without any no-drop weight anywhere. -/
theorem c6_counterexample :
    (leaf_dist 3 "T" tblNeg 1 [] =
        .ok ([("x", -1), ("y", 2/15)],
          [(("S", 1), [("y", 1/15)]), (("T", 1), [("x", -1), ("y", 2/15)])]) ∧
      dsum [("x", (-1 : ℚ)), ("y", 2/15)] < 0) ∧
    (leaf_dist 2 "D" tblDup 1 [] = .ok ([("a", (1 : ℚ)/2)], [(("D", 1), [("a", (1 : ℚ)/2)])]) ∧
      dsum [("a", (1 : ℚ)/2)] ≠ 1 ∧ rowDup.noDrop = none) ∧
    (leaf_dist 2 "E" tblEmpty 1 [] = .ok ([], [(("E", 1), [])]) ∧
      dsum ([] : Dict) ≠ 1 ∧ rowEmpty.noDrop = none ∧ listedPairs rowEmpty = []) := by
  refine ⟨⟨?_, by norm_num [dsum]⟩, ⟨?_, by norm_num [dsum], rfl⟩,
    ⟨?_, by norm_num [dsum], rfl, by decide⟩⟩
  · norm_num +decide [leaf_dist, tblNeg, lookupRow, outcome_probs, listedPairs, sumWeights,
      buildProbDict, dset, leafLoop, dadd, dval, dget, accumScaled, memoLookup, memoInsert,
      nodrop_adjusted_weight, pyround, Int.fract, Int.toNat_ofNat]
  · norm_num +decide [leaf_dist, tblDup, rowDup, lookupRow, outcome_probs, listedPairs,
      sumWeights, buildProbDict, dset, leafLoop, dadd, dval, dget, accumScaled, memoLookup,
      memoInsert]
  · norm_num +decide [leaf_dist, tblEmpty, rowEmpty, lookupRow, outcome_probs, listedPairs,
      sumWeights, buildProbDict, dset, leafLoop, dadd, dval, dget, accumScaled, memoLookup,
      memoInsert]

/-- Claim C6 as amended: when every row reachable from the (nonempty)
reference has nonnegative listed and raw no-drop weights, a successful
Leaf Resolver run from an empty memo yields masses summing into [0, 1];
when additionally every reachable row lists at least one outcome with
pairwise-distinct names and carries no nonzero raw no-drop weight, the
sum is exactly 1 (a reachable row listing nothing yields mass 0). -/
theorem c6_leaf_mass_bounds (fuel : ℕ) (t : Table) (players : Int) (tc : String)
    (d : Dict) (m' : Memo) (hok : leaf_dist fuel tc t players [] = .ok (d, m')) :
    (NonnegFrom t tc → 0 ≤ dsum d ∧ dsum d ≤ 1) ∧
    (NonnegFrom t tc → ExactFrom t tc → tc ≠ "" → dsum d = 1) := by
  obtain ⟨hconv, _⟩ := leaf_dist_sound t players fuel tc [] d m' (coherent_nil t) hok
  obtain ⟨F, hF⟩ := hconv
  obtain ⟨hnd, hb, he⟩ := leafPure_bounds t players F tc d (hF F le_rfl)
  exact ⟨fun hnn => ⟨dsum_nonneg d (hb hnn).1, (hb hnn).2⟩, he⟩

/-- Witness for the amended C6 on a concrete one-row table. -/
theorem c6_witness :
    leaf_dist 2 "A" tblA 1 [] = .ok ([("x", 1)], [(("A", 1), [("x", 1)])]) ∧
    NonnegFrom tblA "A" ∧ ExactFrom tblA "A" ∧
    (0 ≤ dsum [("x", (1 : ℚ))] ∧ dsum [("x", (1 : ℚ))] ≤ 1) ∧
    dsum [("x", (1 : ℚ))] = 1 := by
  have hok : leaf_dist 2 "A" tblA 1 [] = .ok ([("x", 1)], [(("A", 1), [("x", 1)])]) := by
    norm_num +decide [leaf_dist, tblA, rowA, lookupRow, outcome_probs, listedPairs,
      sumWeights, buildProbDict, dset, leafLoop, dadd, dval, dget, accumScaled,
      memoLookup, memoInsert]
  have hnn : NonnegFrom tblA "A" := by
    intro n row hr hl
    rw [tblA_row_unique n row hl]
    exact ⟨by decide, fun nd0 h => Option.noConfusion h⟩
  have hex : ExactFrom tblA "A" := by
    intro n row hr hl
    rw [tblA_row_unique n row hl]
    exact ⟨by decide, Or.inl rfl, by decide⟩
  have hmain := c6_leaf_mass_bounds 2 tblA 1 "A" [("x", 1)] [(("A", 1), [("x", 1)])] hok
  exact ⟨hok, hnn, hex, hmain.1 hnn, hmain.2 hnn hex (by decide)⟩

/-! ### Claim C10 -/

/-- Claim C10: running the memoised Leaf Resolver with any coherent memo
(in particular the empty one or one populated by earlier leaf_dist calls
at any node or player count, since the memo key pairs node and player
count) yields exactly the distribution of the pure unmemoised recursion,
and leaves a memo that is again coherent, so memo reuse never changes a
result. -/
theorem c10_memoisation_sound (t : Table) (fuel : ℕ) (tc : String) (players : Int)
    (memo : Memo) (d : Dict) (m' : Memo) (hmemo : Coherent t memo)
    (hok : leaf_dist fuel tc t players memo = .ok (d, m')) :
    Conv t players tc d ∧ Coherent t m' :=
  leaf_dist_sound t players fuel tc memo d m' hmemo hok

/-- Witness for C10: a memo populated by an earlier call is coherent, and a
later call that hits it returns the pure distribution even with too little
fuel for the recursion. -/
theorem c10_witness :
    Coherent tblA [(("A", 1), [("x", 1)])] ∧
    leaf_dist 1 "A" tblA 1 [(("A", 1), [("x", 1)])] =
      .ok ([("x", 1)], [(("A", 1), [("x", 1)])]) ∧
    (Conv tblA 1 "A" [("x", 1)] ∧ Coherent tblA [(("A", 1), [("x", 1)])]) := by
  have hconvA : Conv tblA 1 "A" [("x", 1)] := by
    refine ⟨1, fun G hG => ?_⟩
    cases G with
    | zero => omega
    | succ G' =>
      norm_num +decide [leafPure, tblA, rowA, lookupRow, outcome_probs, listedPairs,
        sumWeights, buildProbDict, dset, leafLoopP, dadd, dval, dget]
  have hmemo : Coherent tblA [(("A", 1), [("x", 1)])] := by
    intro tc p d h
    simp only [memoLookup] at h
    by_cases hk : ((("A", 1) : String × Int) = (tc, p))
    · rw [if_pos hk] at h
      have hd : [("x", (1 : ℚ))] = d := Option.some.inj h
      rw [Prod.mk.injEq] at hk
      obtain ⟨rfl, rfl⟩ := hk
      rw [← hd]
      exact hconvA
    · rw [if_neg hk] at h
      exact Option.noConfusion h
  have hok : leaf_dist 1 "A" tblA 1 [(("A", 1), [("x", 1)])] =
      .ok ([("x", 1)], [(("A", 1), [("x", 1)])]) := by
    norm_num +decide [leaf_dist, tblA, lookupRow, memoLookup]
  exact ⟨hmemo, hok, c10_memoisation_sound tblA 1 "A" 1 _ _ _ hmemo hok⟩
